import Mathlib

/-!
Shallow embedding of the PyFusion database core (pyfusion_v2):
`core/security.py`, `database/connection_pool.py`, `database/manager.py`,
`database/migrations.py`.  Python strings are Lean `String`s (lists of
characters), SQLite is modelled by an explicit `Store` of tables, machine
behaviour that the claims do not touch (real time, threads, the file
system) is modelled by the sequential semantics described at each
definition.
-/

deriving instance DecidableEq for Except

namespace PyFusion

/-! ### Python string primitives (`str.strip`, `html.escape`, `str.upper`) -/

/-- ASCII whitespace stripped by Python `str.strip()`. -/
def pyWsChars : List Char := [' ', '\t', '\n', '\r', Char.ofNat 11, Char.ofNat 12]

def isPyWs (c : Char) : Bool := pyWsChars.contains c

/-- `str.strip()` on a character list: drop leading and trailing whitespace. -/
def stripChars (l : List Char) : List Char :=
  ((l.dropWhile isPyWs).reverse.dropWhile isPyWs).reverse

def pyStrip (s : String) : String := (stripChars s.toList).asString

/-- `html.escape` of a single character (quote=True: also escapes quotes). -/
def escChar (c : Char) : List Char :=
  if c = '&' then "&amp;".toList
  else if c = '<' then "&lt;".toList
  else if c = '>' then "&gt;".toList
  else if c = Char.ofNat 34 then "&quot;".toList
  else if c = Char.ofNat 39 then "&#x27;".toList
  else [c]

/-- The characters `html.escape` replaces. -/
def htmlSpecialChars : List Char := ['&', '<', '>', Char.ofNat 34, Char.ofNat 39]

def escapeChars (l : List Char) : List Char := (l.map escChar).flatten

def htmlEscape (s : String) : String := (escapeChars s.toList).asString

/-- `Security.sanitize_input` on a string leaf: `html.escape(data.strip())`. -/
def sanitizeStr (s : String) : String := htmlEscape (pyStrip s)

/-! ### `core/security.py` -/

/-- A Python value as it appears in records handed to `Security.sanitize_input`
(strings, numbers, None, nested dicts and lists). -/
inductive PyAny
  | str (s : String)
  | int (n : Int)
  | pynull
  | dict (l : List (String × PyAny))
  | list (l : List PyAny)

mutual
/-- `Security.sanitize_input`: HTML-escape stripped string leaves, recurse
into dicts (values only) and lists, leave other data untouched. -/
def sanitize_input : PyAny → PyAny
  | .str s => .str (sanitizeStr s)
  | .int n => .int n
  | .pynull => .pynull
  | .dict l => .dict (sanitizeDictA l)
  | .list l => .list (sanitizeListA l)

def sanitizeDictA : List (String × PyAny) → List (String × PyAny)
  | [] => []
  | (k, v) :: rest => (k, sanitize_input v) :: sanitizeDictA rest

def sanitizeListA : List PyAny → List PyAny
  | [] => []
  | v :: rest => sanitize_input v :: sanitizeListA rest
end

/-- Scalar values bound as SQL parameters and stored in table cells. -/
inductive PyVal
  | str (s : String)
  | int (n : Int)
  | vnull
deriving DecidableEq, Repr

/-- `Security.sanitize_input` restricted to a scalar value. -/
def sanitizeVal : PyVal → PyVal
  | .str s => .str (sanitizeStr s)
  | v => v

/-- `Security.sanitize_input` on the dict passed to `Database.insert` /
`Database.update`: keys kept, values sanitized. -/
def sanitizeRecord (data : List (String × PyVal)) : List (String × PyVal) :=
  data.map (fun p => (p.1, sanitizeVal p.2))

/-- `pat` occurs as a contiguous run at the front of `l`. -/
def startsWithL : List Char → List Char → Bool
  | [], _ => true
  | _ :: _, [] => false
  | p :: ps, c :: cs => p = c && startsWithL ps cs

/-- `pat in l` for Python strings: `pat` occurs contiguously somewhere in `l`. -/
def hasSub (pat : List Char) : List Char → Bool
  | [] => startsWithL pat []
  | c :: cs => startsWithL pat (c :: cs) || hasSub pat cs

/-- The keyword list of `Security.prevent_sql_injection`, in source order. -/
def sqlKeywords : List String := ["DROP", "DELETE", "INSERT", "UPDATE", "CREATE", "ALTER"]

def injectionMsg (kw : String) : String := "Potential SQL injection detected: " ++ kw

/-- ASCII upper-casing, the part of Python `str.upper()` that can affect
matching of the ASCII SQL keywords. -/
def upChar (c : Char) : Char :=
  if 97 ≤ c.toNat ∧ c.toNat ≤ 122 then Char.ofNat (c.toNat - 32) else c

def pyUpper (s : String) : String := (s.toList.map upChar).asString

/-- One iteration of the keyword loop: `f' {keyword} ' in query.upper() and
'?' not in query`. -/
def kwHit (query : String) (kw : String) : Bool :=
  hasSub (" " ++ kw ++ " ").toList (pyUpper query).toList && !(query.toList.contains '?')

/-- `Security.prevent_sql_injection(query, params)`: returns immediately when
`params` is falsy; otherwise raises `SecurityError` at the first keyword that
appears space-surrounded in the upper-cased query while the query holds no
`?` placeholder. -/
def prevent_sql_injection (query : String) (params : List PyVal) : Except String Bool :=
  if params.isEmpty then .ok true
  else
    match sqlKeywords.find? (kwHit query) with
    | some kw => .error (injectionMsg kw)
    | none => .ok true

/-! ### SQLite store model

One file-backed SQLite database, restricted to the statement shapes that the
Database Manager and Migration Manager actually emit.  `NOT NULL`, column
defaults, foreign keys and timestamps are outside every claim and are not
modelled; `UNIQUE` columns, `AUTOINCREMENT` row ids and row order (insertion
order, which is also the `ORDER BY applied_at` order for the migrations
table since rows are appended) are modelled. -/

structure TableSchema where
  tname : String
  cols : List String
  uniques : List String
  /-- the column aliasing the SQLite rowid (`INTEGER PRIMARY KEY AUTOINCREMENT`) -/
  idCol : Option String
deriving DecidableEq, Repr

structure RowData where
  rowid : Nat
  vals : List (String × PyVal)
deriving DecidableEq, Repr

structure TableData where
  schema : TableSchema
  nextId : Nat
  rows : List RowData
deriving DecidableEq, Repr

abbrev Store := List TableData

def lookupField (c : String) (vals : List (String × PyVal)) : Option PyVal :=
  (vals.find? (fun p => p.1 == c)).map (·.2)

/-- Value of column `c` in row `r`, the rowid-alias column reading the rowid. -/
def colValue (td : TableData) (r : RowData) (c : String) : Option PyVal :=
  if td.schema.idCol = some c then some (.int r.rowid) else lookupField c r.vals

def findTable (st : Store) (t : String) : Option TableData :=
  st.find? (fun td => td.schema.tname == t)

def setTable (st : Store) (td : TableData) : Store :=
  st.map (fun x => if x.schema.tname == td.schema.tname then td else x)

def colOk (td : TableData) (c : String) : Bool :=
  td.schema.cols.contains c || td.schema.idCol == some c

/-- Statements the manager builds (`manager.py` f-strings, `migrations.py`). -/
inductive Stmt
  | createTable (ts : TableSchema)
  | insertInto (t : String) (cols : List String)
  | selectCols (t : String) (cols : List String) (whereCol : Option String)
      (orderBy : Option String)
  | deleteWhere (t : String) (whereCol : String)
  | deleteAllRows (t : String)
  | updateWhere (t : String) (setCols : List String) (whereCol : String)
deriving DecidableEq, Repr

def commaJoin : List String → String
  | [] => ""
  | [x] => x
  | x :: xs => x ++ ", " ++ commaJoin xs

/-- The SQL text each statement shape renders to — what the security
pre-check inspects. -/
def render : Stmt → String
  | .createTable ts => "CREATE TABLE IF NOT EXISTS " ++ ts.tname ++ " (" ++ commaJoin ts.cols ++ ")"
  | .insertInto t cols =>
      "INSERT INTO " ++ t ++ " (" ++ commaJoin cols ++ ") VALUES (" ++
        commaJoin (cols.map (fun _ => "?")) ++ ")"
  | .selectCols t cols w o =>
      "SELECT " ++ commaJoin cols ++ " FROM " ++ t ++
        (match w with | none => "" | some wc => " WHERE " ++ wc ++ " = ?") ++
        (match o with | none => "" | some ob => " ORDER BY " ++ ob)
  | .deleteWhere t w => "DELETE FROM " ++ t ++ " WHERE " ++ w ++ " = ?"
  | .deleteAllRows t => "DELETE FROM " ++ t ++ " WHERE 1=1"
  | .updateWhere t setCols w =>
      "UPDATE " ++ t ++ " SET " ++ commaJoin (setCols.map (fun c => c ++ " = ?")) ++
        " WHERE " ++ w ++ " = ?"

structure ExecResult where
  description : List String
  rows : List (List (String × PyVal))
  lastrowid : Nat
  rowcount : Nat
deriving DecidableEq, Repr

/-- `CREATE TABLE IF NOT EXISTS`: a no-op when the table exists. -/
def applyCreate (ts : TableSchema) (st : Store) : Store :=
  match findTable st ts.tname with
  | some _ => st
  | none => st ++ [⟨ts, 1, []⟩]

/-- First `UNIQUE` column of `td` that the new row would duplicate
(duplicate `NULL`s are allowed, as in SQLite). -/
def uniqueViolation (td : TableData) (vals : List (String × PyVal)) : Option String :=
  td.schema.uniques.find? (fun u =>
    (lookupField u vals).any (fun v =>
      !decide (v = PyVal.vnull) &&
        td.rows.any (fun r => decide (lookupField u r.vals = some v))))

def projectRow (td : TableData) (cols : List String) (r : RowData) :
    List (String × PyVal) :=
  cols.map (fun c => (c, (colValue td r c).getD .vnull))

def setField (c : String) (v : PyVal) (vals : List (String × PyVal)) :
    List (String × PyVal) :=
  if vals.any (fun p => p.1 == c) then
    vals.map (fun p => if p.1 == c then (c, v) else p)
  else vals ++ [(c, v)]

/-- The SQLite engine on one statement: `cursor.execute(query, params)`.
Errors are the `sqlite3.Error` messages. -/
def runStmt (s : Stmt) (params : List PyVal) (st : Store) :
    Except String (Store × ExecResult) :=
  match s with
  | .createTable ts => .ok (applyCreate ts st, ⟨[], [], 0, 0⟩)
  | .insertInto t cols =>
    match findTable st t with
    | none => .error ("no such table: " ++ t)
    | some td =>
      if ¬ cols.all (colOk td) then .error ("table " ++ t ++" has no such column")
      else if cols.length ≠ params.length then .error "wrong number of bindings"
      else
        let vals := cols.zip params
        match uniqueViolation td vals with
        | some u => .error ("UNIQUE constraint failed: " ++ t ++ "." ++ u)
        | none =>
          let td' : TableData := ⟨td.schema, td.nextId + 1, td.rows ++ [⟨td.nextId, vals⟩]⟩
          .ok (setTable st td', ⟨[], [], td.nextId, 1⟩)
  | .selectCols t cols w _ =>
    match findTable st t with
    | none => .error ("no such table: " ++ t)
    | some td =>
      if ¬ cols.all (colOk td) then .error ("table " ++ t ++" has no such column")
      else
        match w with
        | none => .ok (st, ⟨cols, td.rows.map (projectRow td cols), 0, 0⟩)
        | some wc =>
          if ¬ colOk td wc then .error ("table " ++ t ++" has no such column")
          else
            match params with
            | [wv] =>
              let sel := td.rows.filter (fun r => decide (colValue td r wc = some wv))
              .ok (st, ⟨cols, sel.map (projectRow td cols), 0, 0⟩)
            | _ => .error "wrong number of bindings"
  | .deleteWhere t wc =>
    match findTable st t with
    | none => .error ("no such table: " ++ t)
    | some td =>
      if ¬ colOk td wc then .error ("table " ++ t ++" has no such column")
      else
        match params with
        | [wv] =>
          let keep := td.rows.filter (fun r => !decide (colValue td r wc = some wv))
          .ok (setTable st ⟨td.schema, td.nextId, keep⟩,
               ⟨[], [], 0, td.rows.length - keep.length⟩)
        | _ => .error "wrong number of bindings"
  | .deleteAllRows t =>
    match findTable st t with
    | none => .error ("no such table: " ++ t)
    | some td =>
      .ok (setTable st ⟨td.schema, td.nextId, []⟩, ⟨[], [], 0, td.rows.length⟩)
  | .updateWhere t setCols wc =>
    match findTable st t with
    | none => .error ("no such table: " ++ t)
    | some td =>
      if ¬ setCols.all (colOk td) ∨ ¬ colOk td wc then
        .error ("table " ++ t ++" has no such column")
      else if params.length ≠ setCols.length + 1 then .error "wrong number of bindings"
      else
        match params.drop setCols.length with
        | [wv] =>
          let setVals := setCols.zip (params.take setCols.length)
          let upd := fun (r : RowData) =>
            if decide (colValue td r wc = some wv) then
              ⟨r.rowid, setVals.foldl (fun acc p => setField p.1 p.2 acc) r.vals⟩
            else r
          let hits := td.rows.filter (fun r => decide (colValue td r wc = some wv))
          .ok (setTable st ⟨td.schema, td.nextId, td.rows.map upd⟩,
               ⟨[], [], 0, hits.length⟩)
        | _ => .error "wrong number of bindings"

/-! ### `database/manager.py` -/

/-- `PyFusionError` subclasses raised by the database core
(`core/exceptions.py`): `DatabaseError` and `SecurityError`. -/
inductive DbErr
  | databaseError (msg : String)
  | securityError (msg : String)
deriving DecidableEq, Repr

/-- The error `ConnectionPool.get_connection` raises on timeout — the
`PoolExhausted` condition of the spec. -/
def poolExhaustedErr : DbErr := .databaseError "No database connections available"

def wrapDbMsg (e : String) : String := "Database operation failed: " ++ e

/-- `Database.execute(query, params, sanitize)`: optional injection
pre-check, then run the statement on a pooled connection and commit;
`sqlite3.Error`s are wrapped into `DatabaseError` and re-raised.  The pool
checkout around the call is modelled separately by `PoolState`. -/
def executeQ (s : Stmt) (params : List PyVal) (sanitize : Bool) (st : Store) :
    Except DbErr (Store × ExecResult) :=
  let run : Except DbErr (Store × ExecResult) :=
    match runStmt s params st with
    | .error e => .error (.databaseError (wrapDbMsg e))
    | .ok r => .ok r
  if sanitize then
    match prevent_sql_injection (render s) params with
    | .error m => .error (.securityError m)
    | .ok _ => run
  else run

/-- `Database.fetch_all`: execute (sanitize defaulted on) and zip each row
with the cursor description. -/
def fetch_all (s : Stmt) (params : List PyVal) (st : Store) :
    Except DbErr (Store × List (List (String × PyVal))) :=
  match executeQ s params true st with
  | .error e => .error e
  | .ok (st', r) => .ok (st', r.rows)

/-- `Database.fetch_one`: like `fetch_all`, keeping the first row. -/
def fetch_one (s : Stmt) (params : List PyVal) (st : Store) :
    Except DbErr (Store × Option (List (String × PyVal))) :=
  match executeQ s params true st with
  | .error e => .error e
  | .ok (st', r) => .ok (st', r.rows.head?)

/-- `Database.insert(table, data, sanitize)`: sanitize the record, build the
parameterized INSERT and run it with `sanitize=False`, returning
`cursor.lastrowid`. -/
def dbInsert (t : String) (data : List (String × PyVal)) (sanitize : Bool)
    (st : Store) : Except DbErr (Store × Option Nat) :=
  let d := if sanitize then sanitizeRecord data else data
  match executeQ (.insertInto t (d.map (·.1))) (d.map (·.2)) false st with
  | .error e => .error e
  | .ok (st', r) => .ok (st', some r.lastrowid)

/-- `Database.update(table, data, where, where_params, sanitize)`; the WHERE
clause is a single-column equality, the shape every caller in the database
core uses. -/
def dbUpdate (t : String) (data : List (String × PyVal)) (whereCol : String)
    (whereParams : List PyVal) (sanitize : Bool) (st : Store) :
    Except DbErr (Store × Nat) :=
  let d := if sanitize then sanitizeRecord data else data
  match executeQ (.updateWhere t (d.map (·.1)) whereCol)
      (d.map (·.2) ++ whereParams) false st with
  | .error e => .error e
  | .ok (st', r) => .ok (st', r.rowcount)

/-- `Database.delete(table, where, params)` — executes with the sanitize
flag defaulted on. -/
def dbDelete (t : String) (whereCol : String) (params : List PyVal) (st : Store) :
    Except DbErr (Store × Nat) :=
  match executeQ (.deleteWhere t whereCol) params true st with
  | .error e => .error e
  | .ok (st', r) => .ok (st', r.rowcount)

/-! Baseline schema (`Database._setup_tables`, created through
`cursor.execute` directly on a pooled connection). -/

def usersSchema : TableSchema :=
  ⟨"users", ["id", "username", "email", "password_hash", "is_active",
             "created_at", "updated_at"], ["username", "email"], some "id"⟩

def sessionsSchema : TableSchema :=
  ⟨"sessions", ["id", "user_id", "session_token", "expires_at", "created_at"],
   ["session_token"], some "id"⟩

def appDataSchema : TableSchema :=
  ⟨"app_data", ["key", "value", "data_type", "created_at", "updated_at"],
   ["key"], none⟩

def auditLogSchema : TableSchema :=
  ⟨"audit_log", ["id", "action", "user_id", "details", "ip_address",
                 "user_agent", "created_at"], [], some "id"⟩

def setupTables (st : Store) : Store :=
  applyCreate auditLogSchema (applyCreate appDataSchema
    (applyCreate sessionsSchema (applyCreate usersSchema st)))

/-! ### `database/connection_pool.py`

The pool is a bounded FIFO `Queue` of live connections.  A connection is
modelled by its identity, whether an uncommitted transaction is open on it
(`dirty`), and whether its `rollback()` call would raise (`broken`).  The
`checkedOut` list is ghost state recording the connections currently held
by callers under the scoped-acquisition contract (`PooledConnection` as a
context manager: exactly one release per acquire).  Real-time blocking of
`Queue.get(timeout=10)` is modelled sequentially: with no concurrent
release, an empty pool means the wait elapses and `Empty` is raised. -/

structure Conn where
  cid : Nat
  dirty : Bool
  broken : Bool
deriving DecidableEq, Repr

/-- `ConnectionPool._create_connection`: a fresh connection, no open
transaction, healthy. -/
def freshConn (n : Nat) : Conn := ⟨n, false, false⟩

structure PoolState where
  pool : List Conn
  checkedOut : List Conn
  size : Nat
  nextId : Nat
deriving DecidableEq, Repr

/-- The literal timeout of `self._pool.get(timeout=10)`. -/
def acquireTimeout : Nat := 10

/-- `ConnectionPool.__init__` + `_initialize`: `pool_size` fresh connections. -/
def initPool (n : Nat) : PoolState :=
  ⟨(List.range n).map freshConn, [], n, n⟩

/-- `ConnectionPool.get_connection`: pop the queue front, or raise
`DatabaseError` after the timeout when no slot frees. -/
def get_connection (s : PoolState) : Except DbErr (Conn × PoolState) :=
  match s.pool with
  | [] => .error poolExhaustedErr
  | c :: rest => .ok (c, { s with pool := rest, checkedOut := s.checkedOut ++ [c] })

/-- `ConnectionPool.return_connection`: roll the connection back and requeue
it; if rollback raises, requeue a freshly created connection instead. -/
def return_connection (c : Conn) (s : PoolState) : PoolState :=
  if c.broken then
    { s with pool := s.pool ++ [freshConn s.nextId], nextId := s.nextId + 1 }
  else
    { s with pool := s.pool ++ [{ c with dirty := false }] }

/-- Caller-side events under the scoped-acquisition contract: acquire a
connection, run statements on a held connection (possibly opening a
transaction or breaking the handle), release a held connection. -/
inductive PoolOp
  | acquire
  | callerWork (i : Nat) (dirty broken : Bool)
  | release (i : Nat)

def stepOp (s : PoolState) : PoolOp → PoolState
  | .acquire =>
    match get_connection s with
    | .ok (_, s') => s'
    | .error _ => s
  | .callerWork i d b =>
    match s.checkedOut[i]? with
    | some c => { s with checkedOut := s.checkedOut.set i { c with dirty := d, broken := b } }
    | none => s
  | .release i =>
    match s.checkedOut[i]? with
    | some c => return_connection c { s with checkedOut := s.checkedOut.eraseIdx i }
    | none => s

def runOps (s : PoolState) : List PoolOp → PoolState
  | [] => s
  | op :: rest => runOps (stepOp s op) rest

/-! ### `database/migrations.py`

A migration file is known by its filename-derived version string; its
module either contains a `Migration` subclass or not, and the subclass's
`up`/`down` either raise (`none`), return `False`, or return `True`.  The
schema side effects of user-written `up`/`down` bodies are not modelled —
the claims are about the migration bookkeeping. -/

structure MigClass where
  upResult : Option Bool
  downResult : Option Bool
  description : String
deriving DecidableEq, Repr

structure MigFile where
  mname : String
  cls : Option MigClass
deriving DecidableEq, Repr

structure MigState where
  store : Store
  dir : List MigFile
deriving DecidableEq, Repr

def migrationsSchema : TableSchema :=
  ⟨"migrations", ["id", "version", "description", "applied_at"],
   ["version"], some "id"⟩

/-- `MigrationManager._ensure_migrations_table` via `Database.execute`. -/
def ensure_migrations_table (st : Store) : Except DbErr Store :=
  match executeQ (.createTable migrationsSchema) [] true st with
  | .error e => .error e
  | .ok (st', _) => .ok st'

/-- Python `<=` on strings: lexicographic by code point. -/
def strLeAux : List Char → List Char → Bool
  | [], _ => true
  | _ :: _, [] => false
  | a :: as, b :: bs => if a = b then strLeAux as bs else decide (a < b)

def strLe (a b : String) : Bool := strLeAux a.toList b.toList

def strLeP (a b : String) : Prop := strLe a b = true

instance : DecidableRel strLeP := fun a b =>
  inferInstanceAs (Decidable (strLe a b = true))

def versionsOf (rows : List (List (String × PyVal))) : List String :=
  rows.filterMap (fun r => match lookupField "version" r with
    | some (.str s) => some s
    | _ => none)

/-- `MigrationManager.get_applied_migrations`: the version column of the
migrations table in application order. -/
def get_applied_migrations (st : Store) : Except DbErr (Store × List String) :=
  match fetch_all (.selectCols "migrations" ["version"] none (some "applied_at")) [] st with
  | .error e => .error e
  | .ok (st', rows) => .ok (st', versionsOf rows)

/-- `MigrationManager.get_pending_migrations`: migration files not yet
applied, sorted ascending by version string (Python `sorted`). -/
def get_pending_migrations (mg : MigState) : Except DbErr (Store × List String) :=
  match get_applied_migrations mg.store with
  | .error e => .error e
  | .ok (st', applied) =>
    .ok (st', ((mg.dir.map (·.mname)).filter
        (fun n => !applied.contains n)).insertionSort strLeP)

/-- The migrations-table rows, as a pure view for stating theorems. -/
def migRows (st : Store) : List RowData :=
  match findTable st "migrations" with
  | some td => td.rows
  | none => []

/-- The applied version list, as a pure view for stating theorems. -/
def appliedOf (st : Store) : List String :=
  (migRows st).filterMap (fun r => match lookupField "version" r.vals with
    | some (.str s) => some s
    | _ => none)

/-- The pending list, as a pure view for stating theorems. -/
def pendingOf (mg : MigState) : List String :=
  ((mg.dir.map (·.mname)).filter
    (fun n => !(appliedOf mg.store).contains n)).insertionSort strLeP

def findFile (dir : List MigFile) (name : String) : Option MigFile :=
  dir.find? (fun f => f.mname == name)

/-- `MigrationManager._apply_migration`: import the module (failure caught),
find the `Migration` subclass, run `up`; on truthy success record the
version in the migrations table; every exception is caught and turned into
`False` with nothing recorded. -/
def apply_migration (name : String) (mg : MigState) : Bool × MigState :=
  match findFile mg.dir name with
  | none => (false, mg)
  | some f =>
    match f.cls with
    | none => (false, mg)
    | some c =>
      match c.upResult with
      | none => (false, mg)
      | some false => (false, mg)
      | some true =>
        match dbInsert "migrations"
            [("version", .str name), ("description", .str c.description)]
            true mg.store with
        | .error _ => (false, mg)
        | .ok (st', _) => (true, { mg with store := st' })

/-- `MigrationManager._revert_migration`: run `down`; on truthy success
delete the version's record. -/
def revert_migration (name : String) (mg : MigState) : Bool × MigState :=
  match findFile mg.dir name with
  | none => (false, mg)
  | some f =>
    match f.cls with
    | none => (false, mg)
    | some c =>
      match c.downResult with
      | none => (false, mg)
      | some false => (false, mg)
      | some true =>
        match dbDelete "migrations" "version" [.str name] mg.store with
        | .error _ => (false, mg)
        | .ok (st', _) => (true, { mg with store := st' })

/-- The `for` loop of `migrate`: stop at the first failed migration. -/
def applyList : List String → MigState → Bool × MigState
  | [], mg => (true, mg)
  | m :: rest, mg =>
    match apply_migration m mg with
    | (true, mg') => applyList rest mg'
    | (false, mg') => (false, mg')

/-- The `for` loop of `rollback`: stop at the first failed revert. -/
def revertList : List String → MigState → Bool × MigState
  | [], mg => (true, mg)
  | m :: rest, mg =>
    match revert_migration m mg with
    | (true, mg') => revertList rest mg'
    | (false, mg') => (false, mg')

/-- Python `applied[-steps:]` for a non-negative `steps`: the whole list
when `steps == 0` (since `-0 == 0`), otherwise the last `steps` elements. -/
def pySliceLast (steps : Nat) (l : List String) : List String :=
  if steps = 0 then l else l.drop (l.length - steps)

/-- `MigrationManager.migrate(target_version)`. -/
def migrate (target : Option String) (mg : MigState) : Except DbErr (Bool × MigState) :=
  match get_pending_migrations mg with
  | .error e => .error e
  | .ok (_, pending) =>
    if pending.isEmpty then .ok (true, mg)
    else
      let todo := match target with
        | some t => pending.filter (fun m => strLe m t)
        | none => pending
      .ok (applyList todo mg)

/-- `MigrationManager.rollback(steps)`. -/
def rollback (steps : Nat) (mg : MigState) : Except DbErr (Bool × MigState) :=
  match get_applied_migrations mg.store with
  | .error e => .error e
  | .ok (_, applied) =>
    if applied.isEmpty then .ok (true, mg)
    else .ok (revertList (pySliceLast steps applied).reverse mg)

structure StatusResult where
  applied : List String
  pending : List String
  total_applied : Nat
  total_pending : Nat
  current_version : Option String
deriving DecidableEq, Repr

/-- `MigrationManager.status()`: read the applied and pending lists and
return them with their counts and the latest applied version. -/
def status (mg : MigState) : Except DbErr (MigState × StatusResult) :=
  match get_applied_migrations mg.store with
  | .error e => .error e
  | .ok (st1, applied) =>
    match get_pending_migrations { mg with store := st1 } with
    | .error e => .error e
    | .ok (st2, pending) =>
      .ok ({ mg with store := st2 },
           ⟨applied, pending, applied.length, pending.length, applied.getLast?⟩)

/-! ## Connection-pool theorems (C1, C2, C3) -/

/-- Slots in circulation: queued in the pool plus checked out. -/
def circulation (s : PoolState) : Nat := s.pool.length + s.checkedOut.length

theorem circulation_stepOp (s : PoolState) (op : PoolOp) :
    circulation (stepOp s op) = circulation s := by
  cases op with
  | acquire =>
    cases h : s.pool with
    | nil => simp [stepOp, get_connection, h]
    | cons c rest => simp [stepOp, get_connection, h, circulation]; omega
  | callerWork i d b =>
    cases h : s.checkedOut[i]? with
    | none => simp [stepOp, h]
    | some c => simp [stepOp, h, circulation]
  | release i =>
    cases h : s.checkedOut[i]? with
    | none => simp [stepOp, h]
    | some c =>
      have hi : i < s.checkedOut.length := by
        by_contra hc
        simp [List.getElem?_eq_none (Nat.le_of_not_lt hc)] at h
      simp only [stepOp, h, return_connection]
      by_cases hb : c.broken <;>
        simp [hb, circulation, List.length_eraseIdx, hi] <;> omega

theorem circulation_runOps (s : PoolState) (ops : List PoolOp) :
    circulation (runOps s ops) = circulation s := by
  induction ops generalizing s with
  | nil => rfl
  | cons op rest ih => rw [runOps, ih, circulation_stepOp]

/-- C1.  Starting from a pool of size `N`, every sequence of acquires,
caller activity and releases (the scoped-acquisition contract: a caller
releases only a connection it holds, and rollback failure on release puts
a freshly created connection in the broken one's place) keeps the number
of checked-out connections at most `N`, and keeps the total slots in
circulation (queued plus checked out) at most `N`. -/
theorem pool_size_invariant (n : Nat) (ops : List PoolOp) :
    (runOps (initPool n) ops).checkedOut.length ≤ n ∧
    (runOps (initPool n) ops).pool.length +
      (runOps (initPool n) ops).checkedOut.length ≤ n := by
  have h := circulation_runOps (initPool n) ops
  have h2 : circulation (initPool n) = n := by simp [circulation, initPool]
  rw [h2] at h
  unfold circulation at h
  omega

/-- Every connection sitting in the pool queue is in a clean (rolled-back)
transaction state. -/
def cleanPool (s : PoolState) : Prop := ∀ c ∈ s.pool, c.dirty = false

theorem cleanPool_stepOp (s : PoolState) (op : PoolOp) (h : cleanPool s) :
    cleanPool (stepOp s op) := by
  cases op with
  | acquire =>
    cases hp : s.pool with
    | nil => simpa [stepOp, get_connection, hp] using h
    | cons c rest =>
      intro d hd
      simp [stepOp, get_connection, hp] at hd
      exact h d (by simp [hp, hd])
  | callerWork i dd bb =>
    cases hc : s.checkedOut[i]? with
    | none => simpa [stepOp, hc] using h
    | some c => intro d hd; simp [stepOp, hc] at hd; exact h d hd
  | release i =>
    cases hc : s.checkedOut[i]? with
    | none => simpa [stepOp, hc] using h
    | some c =>
      intro d hd
      simp only [stepOp, hc, return_connection] at hd
      by_cases hb : c.broken <;> simp [hb] at hd <;>
        rcases hd with hd | hd
      · exact h d hd
      · simp [hd, freshConn]
      · exact h d hd
      · simp [hd]

theorem cleanPool_run (s : PoolState) (ops : List PoolOp) (h : cleanPool s) :
    cleanPool (runOps s ops) := by
  induction ops generalizing s with
  | nil => exact h
  | cons op rest ih => exact ih _ (cleanPool_stepOp s op h)

theorem cleanPool_runOps (n : Nat) (ops : List PoolOp) :
    cleanPool (runOps (initPool n) ops) := by
  refine cleanPool_run _ _ ?_
  intro c hc
  simp [initPool, freshConn] at hc
  obtain ⟨i, _, rfl⟩ := hc
  rfl

/-- C2.  On release, any uncommitted transaction is rolled back before the
connection re-enters the pool (a broken one is replaced by a freshly
created connection, keeping the slot count), so every reachable pool state
holds only clean connections and the next acquirer always receives a
connection in a clean (rolled-back) transaction state. -/
theorem release_rolls_back_and_replaces :
    (∀ (n : Nat) (ops : List PoolOp),
      ∀ c ∈ (runOps (initPool n) ops).pool, c.dirty = false) ∧
    (∀ (n : Nat) (ops : List PoolOp) (c : Conn) (s' : PoolState),
      get_connection (runOps (initPool n) ops) = .ok (c, s') → c.dirty = false) ∧
    (∀ (c : Conn) (s : PoolState), c.broken = false →
      (return_connection c s).pool = s.pool ++ [{ c with dirty := false }]) ∧
    (∀ (c : Conn) (s : PoolState), c.broken = true →
      (return_connection c s).pool = s.pool ++ [freshConn s.nextId] ∧
      (return_connection c s).pool.length = s.pool.length + 1 ∧
      (freshConn s.nextId).dirty = false) := by
  refine ⟨cleanPool_runOps, ?_, ?_, ?_⟩
  · intro n ops c s' hget
    have hclean := cleanPool_runOps n ops
    cases hp : (runOps (initPool n) ops).pool with
    | nil => simp [get_connection, hp] at hget
    | cons d rest =>
      simp [get_connection, hp] at hget
      exact hget.1 ▸ hclean d (by simp [hp])
  · intro c s hb; simp [return_connection, hb]
  · intro c s hb; simp [return_connection, hb, freshConn]

theorem release_rolls_back_and_replaces_witness :
    ((return_connection ⟨7, true, false⟩ (initPool 1)).pool =
      (initPool 1).pool ++ [⟨7, false, false⟩]) ∧
    ((return_connection ⟨7, true, true⟩ (initPool 1)).pool =
      (initPool 1).pool ++ [freshConn 1]) ∧
    (∀ c ∈ (runOps (initPool 2) [.acquire, .callerWork 0 true false, .release 0]).pool,
      c.dirty = false) ∧
    (⟨1, false, false⟩ : Conn).dirty = false :=
  ⟨release_rolls_back_and_replaces.2.2.1 ⟨7, true, false⟩ (initPool 1) rfl,
   (release_rolls_back_and_replaces.2.2.2 ⟨7, true, true⟩ (initPool 1) rfl).1,
   release_rolls_back_and_replaces.1 2 [.acquire, .callerWork 0 true false, .release 0],
   release_rolls_back_and_replaces.2.1 2 [.acquire, .release 0] ⟨1, false, false⟩
     { pool := [⟨0, false, false⟩], checkedOut := [⟨1, false, false⟩],
       size := 2, nextId := 2 } (by decide)⟩

/-- C3.  `get_connection` waits on the queue with the literal timeout 10;
in the sequential model (no concurrent release frees a slot during the
wait) an exhausted pool makes the acquire fail with the `PoolExhausted`
condition — the `DatabaseError` carrying "No database connections
available".  In particular, against a pool of size 2, a third acquire
without any intervening release fails that way. -/
theorem acquire_timeout_pool_exhausted :
    acquireTimeout = 10 ∧
    (∀ s : PoolState, s.pool = [] → get_connection s = .error poolExhaustedErr) ∧
    get_connection (runOps (initPool 2) [.acquire, .acquire]) =
      .error poolExhaustedErr := by
  refine ⟨rfl, ?_, by decide⟩
  intro s hs
  simp [get_connection, hs]

theorem acquire_timeout_pool_exhausted_witness :
    get_connection ⟨[], [], 3, 3⟩ = .error poolExhaustedErr :=
  acquire_timeout_pool_exhausted.2.1 ⟨[], [], 3, 3⟩ rfl

/-! ## Security pre-check theorems (C4) -/

/-- The scenario record of spec §8: a user alice. -/
def aliceData : List (String × PyVal) :=
  [("username", .str "alice"), ("email", .str "alice@example.com"),
   ("password_hash", .str "p")]

/-- The baseline store right after `Database._setup_tables`. -/
def emptyDb : Store := setupTables []

/-- `emptyDb` after inserting alice (the match arm is total: the insert
succeeds, see `database_error_wrapped`). -/
def aliceStore : Store :=
  match dbInsert "users" aliceData true emptyDb with
  | .ok (st, _) => st
  | .error _ => emptyDb

def userRowCount (st : Store) : Nat :=
  match findTable st "users" with
  | some td => td.rows.length
  | none => 0

/-- C4 counterexample.  `DELETE FROM users WHERE 1=1` — a statement with a
dangerous mutating keyword and no parameter placeholder — executed with
the pre-check enabled and no parameters is NOT rejected: the check returns
immediately on falsy `params`, the statement reaches the database and the
users table is emptied.  This falsifies the claim that every such
statement fails with a `SecurityViolation` before reaching the database. -/
theorem injection_check_counterexample :
    hasSub "DELETE".toList (render (Stmt.deleteAllRows "users")).toList = true ∧
    (render (Stmt.deleteAllRows "users")).toList.contains '?' = false ∧
    (executeQ (Stmt.deleteAllRows "users") [] true aliceStore).isOk = true ∧
    (match executeQ (Stmt.deleteAllRows "users") [] true aliceStore with
      | .ok (st', _) => userRowCount st'
      | .error _ => 99) = 0 ∧
    userRowCount aliceStore = 1 := by
  decide

/-- C4 amended.  The pre-check rejects a statement exactly when parameters
are supplied AND some dangerous keyword occurs space-surrounded in the
upper-cased statement text while the text holds no `?` placeholder; the
rejection surfaces as a `SecurityError` from `execute` before the
statement reaches the database.  Statements executed without parameters,
and statements containing a `?` placeholder, are never rejected. -/
theorem injection_check_amended :
    (∀ (q : String) (params : List PyVal),
      (∃ m, prevent_sql_injection q params = .error m) ↔
        (params ≠ [] ∧ ∃ kw ∈ sqlKeywords, kwHit q kw = true)) ∧
    (∀ (s : Stmt) (params : List PyVal) (st : Store) (m : String),
      prevent_sql_injection (render s) params = .error m →
      executeQ s params true st = .error (.securityError m)) ∧
    (∀ (q : String) (params : List PyVal),
      q.toList.contains '?' = true ∨ params = [] →
      prevent_sql_injection q params = .ok true) := by
  refine ⟨?_, ?_, ?_⟩
  · intro q params
    unfold prevent_sql_injection
    by_cases hp : params.isEmpty
    · simp [hp, List.isEmpty_iff.mp hp]
    · have hp' : params ≠ [] := by
        intro hc; exact hp (by simp [hc])
      simp only [hp, if_false]
      cases hf : sqlKeywords.find? (kwHit q) with
      | none =>
        simp only [List.find?_eq_none] at hf
        constructor
        · rintro ⟨m, hm⟩; simp at hm
        · rintro ⟨-, kw, hkw, hhit⟩
          exact absurd hhit (by simpa using hf kw hkw)
      | some kw =>
        constructor
        · intro _
          exact ⟨hp', kw, List.mem_of_find?_eq_some hf, List.find?_some hf⟩
        · intro _; exact ⟨injectionMsg kw, rfl⟩
  · intro s params st m hm
    unfold executeQ
    simp only [if_true, hm]
  · intro q params h
    unfold prevent_sql_injection
    by_cases hp : params.isEmpty
    · simp [hp]
    · rcases h with h | h
      · have hf : sqlKeywords.find? (kwHit q) = none := by
          rw [List.find?_eq_none]
          intro kw _
          unfold kwHit
          rw [h]
          simp
        simp [hp, hf]
      · exact absurd (by simp [h] : params.isEmpty = true) hp

theorem injection_check_amended_witness :
    (∃ m, prevent_sql_injection "a DELETE b" [.int 1] = .error m) ∧
    executeQ (Stmt.selectCols "x DELETE y" ["a"] none none) [.int 1] true [] =
      .error (.securityError (injectionMsg "DELETE")) ∧
    prevent_sql_injection "SELECT a FROM t WHERE b = ?" [.int 1] = .ok true ∧
    prevent_sql_injection "DELETE FROM users WHERE 1=1" [] = .ok true :=
  ⟨(injection_check_amended.1 "a DELETE b" [.int 1]).mpr
      ⟨by decide, "DELETE", by decide, by decide⟩,
   injection_check_amended.2.1 (Stmt.selectCols "x DELETE y" ["a"] none none)
      [.int 1] [] (injectionMsg "DELETE") (by decide),
   injection_check_amended.2.2 "SELECT a FROM t WHERE b = ?" [.int 1]
      (Or.inl (by decide)),
   injection_check_amended.2.2 "DELETE FROM users WHERE 1=1" [] (Or.inr rfl)⟩

/-! ## Error-wrapping theorems (C5) -/

/-- C5.  Whatever statement the underlying store rejects, `execute` wraps
the `sqlite3` error into a `DatabaseError` ("Database operation failed:
...") and re-raises it — with or without the pre-check — and `insert`
layered on `execute` propagates that failure unchanged.  Concretely:
inserting alice succeeds, and inserting a second user with the same unique
username fails with the wrapped UNIQUE-constraint `DatabaseError`. -/
theorem database_error_wrapped :
    (∀ (s : Stmt) (params : List PyVal) (st : Store) (e : String),
      runStmt s params st = .error e →
      executeQ s params false st = .error (.databaseError (wrapDbMsg e))) ∧
    (∀ (s : Stmt) (params : List PyVal) (st : Store) (e : String),
      runStmt s params st = .error e →
      prevent_sql_injection (render s) params = .ok true →
      executeQ s params true st = .error (.databaseError (wrapDbMsg e))) ∧
    (∀ (t : String) (data : List (String × PyVal)) (st : Store) (e : DbErr),
      executeQ (.insertInto t ((sanitizeRecord data).map (·.1)))
        ((sanitizeRecord data).map (·.2)) false st = .error e →
      dbInsert t data true st = .error e) ∧
    dbInsert "users" aliceData true emptyDb = .ok (aliceStore, some 1) ∧
    dbInsert "users"
      [("username", .str "alice"), ("email", .str "b@x.com"),
       ("password_hash", .str "q")] true aliceStore =
      .error (.databaseError (wrapDbMsg "UNIQUE constraint failed: users.username")) := by
  refine ⟨?_, ?_, ?_, by decide, by decide⟩
  · intro s params st e h
    simp [executeQ, h]
  · intro s params st e h hok
    simp [executeQ, h, hok]
  · intro t data st e h
    simp only [dbInsert, if_true] at h ⊢
    rw [h]

theorem database_error_wrapped_witness :
    executeQ (Stmt.insertInto "users" ["username", "email", "password_hash"])
      [.str "alice", .str "b@x.com", .str "q"] false aliceStore =
      .error (.databaseError (wrapDbMsg "UNIQUE constraint failed: users.username")) ∧
    executeQ (Stmt.insertInto "users" ["username", "email", "password_hash"])
      [.str "alice", .str "b@x.com", .str "q"] true aliceStore =
      .error (.databaseError (wrapDbMsg "UNIQUE constraint failed: users.username")) ∧
    dbInsert "users"
      [("username", .str "alice"), ("email", .str "b@x.com"),
       ("password_hash", .str "q")] true aliceStore =
      .error (.databaseError (wrapDbMsg "UNIQUE constraint failed: users.username")) :=
  ⟨database_error_wrapped.1 _ _ aliceStore _ (by decide),
   database_error_wrapped.2.1 _ _ aliceStore _ (by decide) (by decide),
   database_error_wrapped.2.2.1 "users"
     [("username", .str "alice"), ("email", .str "b@x.com"),
      ("password_hash", .str "q")] aliceStore _
     (database_error_wrapped.1 _ _ aliceStore _ (by decide))⟩

/-! ## Store lemmas shared by the round-trip and migration theorems -/

theorem prevent_ok_of_placeholder (q : String) (params : List PyVal)
    (h : '?' ∈ q.toList) : prevent_sql_injection q params = .ok true := by
  unfold prevent_sql_injection
  by_cases hp : params.isEmpty
  · simp [hp]
  · have hc : q.toList.contains '?' = true := List.elem_iff.mpr h
    have hfnd : sqlKeywords.find? (kwHit q) = none := by
      rw [List.find?_eq_none]
      intro kw _
      unfold kwHit
      rw [hc]
      simp
    simp [hp, hfnd]

theorem executeQ_false_ok {s : Stmt} {params : List PyVal} {st : Store}
    {v : Store × ExecResult} :
    executeQ s params false st = .ok v ↔ runStmt s params st = .ok v := by
  unfold executeQ
  cases h : runStmt s params st <;> simp [h]

theorem findTable_name {st : Store} {t : String} {td : TableData}
    (h : findTable st t = some td) : td.schema.tname = t := by
  have := List.find?_some h
  simpa using this

theorem findTable_setTable (st : Store) (td td' : TableData) (t : String)
    (hf : findTable st t = some td) (hn : td'.schema.tname = td.schema.tname) :
    findTable (setTable st td') t = some td' := by
  have ht : td.schema.tname = t := findTable_name hf
  induction st with
  | nil => simp [findTable] at hf
  | cons x xs ih =>
    unfold setTable at ih ⊢
    rw [List.map_cons]
    by_cases hx : x.schema.tname = t
    · have hfx : findTable (x :: xs) t = some x := by
        unfold findTable
        exact List.find?_cons_of_pos _ (by simp [hx])
      rw [hfx] at hf
      injection hf with hf
      subst hf
      have hxr : (x.schema.tname == td'.schema.tname) = true := by
        simp [hn, ht, hx]
      rw [if_pos hxr]
      unfold findTable
      exact List.find?_cons_of_pos _ (by simp [hn, ht, hx])
    · have hfx : findTable (x :: xs) t = findTable xs t := by
        unfold findTable
        rw [List.find?_cons_of_neg _ (by simp [hx])]
      rw [hfx] at hf
      have hxe : (x.schema.tname == td'.schema.tname) = false := by
        simp [hn, ht, hx]
      rw [if_neg (by simp at hxe ⊢; exact hxe)]
      unfold findTable
      rw [List.find?_cons_of_neg _ (by simp [hx])]
      exact ih hf

theorem runStmt_insert_ok {t : String} {cols : List String} {params : List PyVal}
    {st st' : Store} {res : ExecResult}
    (h : runStmt (.insertInto t cols) params st = .ok (st', res)) :
    ∃ td, findTable st t = some td ∧
      cols.all (colOk td) = true ∧ cols.length = params.length ∧
      uniqueViolation td (cols.zip params) = none ∧
      st' = setTable st ⟨td.schema, td.nextId + 1,
        td.rows ++ [⟨td.nextId, cols.zip params⟩]⟩ ∧
      res.lastrowid = td.nextId := by
  simp only [runStmt] at h
  split at h
  next => exact absurd h (by simp)
  next td hf =>
    refine ⟨td, hf, ?_⟩
    split at h
    next hall => exact absurd h (by simp)
    next hall =>
      split at h
      next hlen => exact absurd h (by simp)
      next hlen =>
        split at h
        next u hu => exact absurd h (by simp)
        next hu =>
          injection h with h
          injection h with h1 h2
          refine ⟨by simpa using hall, by omega, hu, h1.symm, ?_⟩
          rw [← h2]

theorem project_self (d : List (String × PyVal)) (hnodup : (d.map (·.1)).Nodup) :
    (d.map (·.1)).map (fun c => (c, (lookupField c d).getD .vnull)) = d := by
  induction d with
  | nil => rfl
  | cons p rest ih =>
    obtain ⟨k, v⟩ := p
    simp only [List.map_cons] at hnodup ⊢
    have hk : lookupField k ((k, v) :: rest) = some v := by simp [lookupField]
    rw [hk]
    have hnd := hnodup
    rw [List.nodup_cons] at hnd
    have htail : ∀ c ∈ rest.map (·.1),
        (fun c => (c, (lookupField c ((k, v) :: rest)).getD PyVal.vnull)) c =
        (fun c => (c, (lookupField c rest).getD PyVal.vnull)) c := by
      intro c hc
      have hne : (k == c) = false := by
        have : k ≠ c := fun he => hnd.1 (he ▸ hc)
        simp [this]
      simp [lookupField, List.find?_cons_of_neg, hne]
    simp only [Option.getD_some]
    rw [List.map_congr_left htail, ih hnd.2]

theorem sanitizeRecord_fst (d : List (String × PyVal)) :
    (sanitizeRecord d).map (·.1) = d.map (·.1) := by
  simp [sanitizeRecord, List.map_map, Function.comp]

theorem fetch_one_select {t : String} {cols : List String} {wc : String}
    {st : Store} {td : TableData} {wv : PyVal}
    (hf : findTable st t = some td) (hca : cols.all (colOk td) = true)
    (hcw : colOk td wc = true) :
    fetch_one (.selectCols t cols (some wc) none) [wv] st =
      .ok (st, ((td.rows.filter
        (fun r => decide (colValue td r wc = some wv))).map
          (projectRow td cols)).head?) := by
  have hmem : '?' ∈ (render (.selectCols t cols (some wc) none)).toList := by
    have h3 : '?' ∈ " = ?".data := by decide
    simp only [render, String.toList, String.data_append, List.mem_append]
    tauto
  have hprev := prevent_ok_of_placeholder
    (render (.selectCols t cols (some wc) none)) [wv] hmem
  simp only [fetch_one, executeQ, hprev]
  simp only [runStmt, hf]
  simp [hca, hcw]

theorem insert_fetch_raw (t : String) (d : List (String × PyVal))
    (st st' : Store) (td : TableData) (rid : Nat) (idc : String)
    (hf : findTable st t = some td)
    (hid : td.schema.idCol = some idc)
    (hbound : ∀ r ∈ td.rows, r.rowid < td.nextId)
    (hnodup : (d.map (·.1)).Nodup)
    (hnotid : ∀ p ∈ d, p.1 ≠ idc)
    (hok : dbInsert t d false st = .ok (st', some rid)) :
    fetch_one (.selectCols t (d.map (·.1)) (some idc) none) [.int rid] st' =
      .ok (st', some d) ∧ rid = td.nextId := by
  have hok' : (match executeQ (.insertInto t (d.map (·.1))) (d.map (·.2)) false st with
      | .error e => (.error e : Except DbErr (Store × Option Nat))
      | .ok (st2, r) => .ok (st2, some r.lastrowid)) = .ok (st', some rid) := hok
  cases hq : executeQ (.insertInto t (d.map (·.1))) (d.map (·.2)) false st with
  | error e => rw [hq] at hok'; exact absurd hok' (by simp)
  | ok v =>
    obtain ⟨st2, res⟩ := v
    rw [hq] at hok'
    injection hok' with hok'
    injection hok' with hs hr
    injection hr with hr
    subst hs
    have hrun := executeQ_false_ok.mp hq
    obtain ⟨td0, hft, hall, hlen, huniq, hst, hlast⟩ := runStmt_insert_ok hrun
    rw [hf] at hft
    injection hft with hft
    subst hft
    have hridnext : rid = td.nextId := by rw [← hr, hlast]
    have hzip : (d.map (·.1)).zip (d.map (·.2)) = d := by
      rw [List.zip_map']
      simp
    rw [hzip] at hst
    have hft' : findTable st2 t =
        some ⟨td.schema, td.nextId + 1, td.rows ++ [⟨td.nextId, d⟩]⟩ := by
      rw [hst]
      exact findTable_setTable st td _ t hf rfl
    have hca2 : (d.map (·.1)).all
        (colOk ⟨td.schema, td.nextId + 1, td.rows ++ [⟨td.nextId, d⟩]⟩) = true := hall
    have hcw2 : colOk
        (⟨td.schema, td.nextId + 1, td.rows ++ [⟨td.nextId, d⟩]⟩ : TableData)
        idc = true := by
      simp [colOk, hid]
    refine ⟨?_, hridnext⟩
    rw [fetch_one_select hft' hca2 hcw2]
    have hfilt : (td.rows ++ [(⟨td.nextId, d⟩ : RowData)]).filter
        (fun r => decide (colValue
          (⟨td.schema, td.nextId + 1,
            td.rows ++ [(⟨td.nextId, d⟩ : RowData)]⟩ : TableData) r idc =
            some (.int rid))) = [(⟨td.nextId, d⟩ : RowData)] := by
      rw [List.filter_append]
      have h1 : td.rows.filter
          (fun r => decide (colValue
            (⟨td.schema, td.nextId + 1,
              td.rows ++ [(⟨td.nextId, d⟩ : RowData)]⟩ : TableData) r idc =
              some (.int rid))) = [] := by
        rw [List.filter_eq_nil_iff]
        intro r hr2
        have hb := hbound r hr2
        simp [colValue, hid]
        omega
      have h2 : ([(⟨td.nextId, d⟩ : RowData)] : List RowData).filter
          (fun r => decide (colValue
            (⟨td.schema, td.nextId + 1,
              td.rows ++ [(⟨td.nextId, d⟩ : RowData)]⟩ : TableData) r idc =
              some (.int rid))) = [(⟨td.nextId, d⟩ : RowData)] := by
        simp [colValue, hid, hridnext]
      rw [h1, h2, List.nil_append]
    rw [hfilt]
    have hproj : projectRow
        (⟨td.schema, td.nextId + 1,
          td.rows ++ [(⟨td.nextId, d⟩ : RowData)]⟩ : TableData)
        (d.map (·.1)) (⟨td.nextId, d⟩ : RowData) = d := by
      unfold projectRow
      have hmapeq : ∀ c ∈ d.map (·.1),
          (fun c => (c, (colValue
            (⟨td.schema, td.nextId + 1,
              td.rows ++ [(⟨td.nextId, d⟩ : RowData)]⟩ : TableData)
            (⟨td.nextId, d⟩ : RowData) c).getD PyVal.vnull)) c =
          (fun c => (c, (lookupField c d).getD PyVal.vnull)) c := by
        intro c hc
        obtain ⟨p, hp, rfl⟩ := List.mem_map.mp hc
        have hne : p.1 ≠ idc := hnotid p hp
        have hcond : ¬ (td.schema.idCol = some p.1) := by
          rw [hid]
          intro he
          injection he with he
          exact hne he.symm
        simp [colValue, hcond]
      rw [List.map_congr_left hmapeq, project_self d hnodup]
    simp [hproj]

/-! ## Insert/fetch round-trip theorems (C6) -/

def angleData : List (String × PyVal) :=
  [("username", .str "a<b"), ("email", .str "e@x"), ("password_hash", .str "p")]

def angleStore : Store :=
  match dbInsert "users" angleData true emptyDb with
  | .ok (st, _) => st
  | .error _ => emptyDb

/-- C6 counterexample.  Insert (with its default sanitization) HTML-escapes
string fields, so `insert` followed by `fetch_one` on the generated primary
key returns the *escaped* record: inserting username `a<b` stores and
returns `a&lt;b`, which differs from the inserted fields.  This falsifies
the round-trip claim as stated. -/
theorem insert_roundtrip_counterexample :
    dbInsert "users" angleData true emptyDb = .ok (angleStore, some 1) ∧
    fetch_one (.selectCols "users" ["username", "email", "password_hash"]
        (some "id") none) [.int 1] angleStore =
      .ok (angleStore, some [("username", .str "a&lt;b"), ("email", .str "e@x"),
        ("password_hash", .str "p")]) ∧
    [("username", PyVal.str "a&lt;b"), ("email", PyVal.str "e@x"),
      ("password_hash", PyVal.str "p")] ≠ angleData := by
  decide

/-- C6 amended.  For every table and record accepted by `insert`, a
subsequent `fetch_one` querying the generated primary key returns the
*sanitizer's image* of the inserted fields — equal to the inserted fields
exactly when sanitization is disabled or leaves them unchanged; and
`insert` returns the newly generated row identifier (never an absent one
on success). -/
theorem insert_roundtrip_amended :
    (∀ (t : String) (data : List (String × PyVal)) (st st' : Store)
        (td : TableData) (rid : Nat) (idc : String),
      findTable st t = some td → td.schema.idCol = some idc →
      (∀ r ∈ td.rows, r.rowid < td.nextId) →
      (data.map (·.1)).Nodup → (∀ p ∈ data, p.1 ≠ idc) →
      dbInsert t data true st = .ok (st', some rid) →
      fetch_one (.selectCols t (data.map (·.1)) (some idc) none) [.int rid] st' =
        .ok (st', some (sanitizeRecord data)) ∧ rid = td.nextId) ∧
    (∀ (t : String) (data : List (String × PyVal)) (st st' : Store)
        (td : TableData) (rid : Nat) (idc : String),
      findTable st t = some td → td.schema.idCol = some idc →
      (∀ r ∈ td.rows, r.rowid < td.nextId) →
      (data.map (·.1)).Nodup → (∀ p ∈ data, p.1 ≠ idc) →
      dbInsert t data false st = .ok (st', some rid) →
      fetch_one (.selectCols t (data.map (·.1)) (some idc) none) [.int rid] st' =
        .ok (st', some data) ∧ rid = td.nextId) ∧
    (∀ (t : String) (data : List (String × PyVal)) (sz : Bool)
        (st st' : Store) (r : Option Nat),
      dbInsert t data sz st = .ok (st', r) → ∃ n, r = some n) := by
  refine ⟨?_, ?_, ?_⟩
  · intro t data st st' td rid idc hf hid hbound hnodup hnotid hok
    have hok' : dbInsert t (sanitizeRecord data) false st = .ok (st', some rid) := hok
    have hnodup' : ((sanitizeRecord data).map (·.1)).Nodup := by
      rw [sanitizeRecord_fst]; exact hnodup
    have hnotid' : ∀ p ∈ sanitizeRecord data, p.1 ≠ idc := by
      intro p hp
      obtain ⟨q, hq, rfl⟩ := List.mem_map.mp hp
      exact hnotid q hq
    have := insert_fetch_raw t (sanitizeRecord data) st st' td rid idc
      hf hid hbound hnodup' hnotid' hok'
    rwa [sanitizeRecord_fst] at this
  · intro t data st st' td rid idc hf hid hbound hnodup hnotid hok
    exact insert_fetch_raw t data st st' td rid idc hf hid hbound hnodup hnotid hok
  · intro t data sz st st' r hok
    have hok' : (match executeQ (.insertInto t
          ((if sz then sanitizeRecord data else data).map (·.1)))
          ((if sz then sanitizeRecord data else data).map (·.2)) false st with
        | .error e => (.error e : Except DbErr (Store × Option Nat))
        | .ok (st2, rr) => .ok (st2, some rr.lastrowid)) = .ok (st', r) := hok
    cases hq : executeQ (.insertInto t
        ((if sz then sanitizeRecord data else data).map (·.1)))
        ((if sz then sanitizeRecord data else data).map (·.2)) false st with
    | error e => rw [hq] at hok'; exact absurd hok' (by simp)
    | ok v =>
      obtain ⟨st2, res⟩ := v
      rw [hq] at hok'
      injection hok' with hok'
      injection hok' with hs hr
      exact ⟨res.lastrowid, hr.symm⟩

theorem insert_roundtrip_amended_witness :
    (fetch_one (.selectCols "users" ["username", "email", "password_hash"]
        (some "id") none) [.int 1] aliceStore =
      .ok (aliceStore, some (sanitizeRecord aliceData)) ∧ 1 = 1) ∧
    (∃ n, (some 1 : Option Nat) = some n) :=
  ⟨insert_roundtrip_amended.1 "users" aliceData emptyDb aliceStore
      ⟨usersSchema, 1, []⟩ 1 "id" (by decide) (by decide) (by decide)
      (by decide) (by decide) (by decide),
   insert_roundtrip_amended.2.2 "users" aliceData true emptyDb aliceStore
      (some 1) (by decide)⟩

/-! ## Sanitizer lemmas and theorems (C10) -/

def headWs (l : List Char) : Bool := (l.head?.map isPyWs).getD false

def lastWs (l : List Char) : Bool := (l.getLast?.map isPyWs).getD false

/-- The string starts or ends with (Python) whitespace. -/
def hasEdgeWs (l : List Char) : Bool := headWs l || lastWs l

/-- The string holds a character that `html.escape` replaces. -/
def hasSpecial (l : List Char) : Bool := l.any (fun c => htmlSpecialChars.contains c)

theorem head_dropWhile_not_ws (l : List Char) :
    headWs (l.dropWhile isPyWs) = false := by
  induction l with
  | nil => rfl
  | cons c cs ih =>
    by_cases h : isPyWs c
    · simpa [List.dropWhile_cons, h] using ih
    · simp [List.dropWhile_cons, h, headWs]

theorem getLast?_dropWhile (p : Char → Bool) (l : List Char)
    (h : l.dropWhile p ≠ []) : (l.dropWhile p).getLast? = l.getLast? := by
  induction l with
  | nil => simp at h
  | cons c cs ih =>
    by_cases hp : p c
    · rw [List.dropWhile_cons, if_pos hp] at h ⊢
      have hcs : cs ≠ [] := by
        intro he
        rw [he] at h
        simp at h
      obtain ⟨c2, cs2, rfl⟩ := List.exists_cons_of_ne_nil hcs
      rw [ih h, List.getLast?_cons_cons]
    · rw [List.dropWhile_cons, if_neg hp]

theorem headWs_stripChars (l : List Char) : headWs (stripChars l) = false := by
  unfold stripChars
  cases hm : (l.dropWhile isPyWs).reverse.dropWhile isPyWs with
  | nil => simp [headWs]
  | cons a m =>
    rw [← hm]
    unfold headWs
    rw [List.head?_reverse]
    rw [getLast?_dropWhile _ _ (by rw [hm]; simp)]
    rw [List.getLast?_reverse]
    have := head_dropWhile_not_ws l
    unfold headWs at this
    exact this

theorem lastWs_stripChars (l : List Char) : lastWs (stripChars l) = false := by
  unfold stripChars lastWs
  rw [List.getLast?_reverse]
  have := head_dropWhile_not_ws ((l.dropWhile isPyWs).reverse)
  unfold headWs at this
  exact this

theorem escChar_ne_nil (c : Char) : escChar c ≠ [] := by
  unfold escChar
  split_ifs <;> simp

theorem headWs_escChar (c : Char) (h : isPyWs c = false) :
    headWs (escChar c) = false := by
  unfold escChar
  split_ifs <;> first
    | decide
    | simpa [headWs] using h

theorem lastWs_escChar (c : Char) (h : isPyWs c = false) :
    lastWs (escChar c) = false := by
  unfold escChar
  split_ifs <;> first
    | decide
    | simpa [lastWs] using h

theorem headWs_append_left (a b : List Char) (h : a ≠ []) :
    headWs (a ++ b) = headWs a := by
  cases a with
  | nil => exact absurd rfl h
  | cons x xs => simp [headWs]

theorem lastWs_append_right (a b : List Char) (h : b ≠ []) :
    lastWs (a ++ b) = lastWs b := by
  unfold lastWs
  rw [List.getLast?_append_of_ne_nil _ h]

theorem headWs_escapeChars (l : List Char) (h : headWs l = false) :
    headWs (escapeChars l) = false := by
  cases l with
  | nil => rfl
  | cons c cs =>
    have hc : isPyWs c = false := by simpa [headWs] using h
    unfold escapeChars
    rw [List.map_cons, List.flatten_cons]
    rw [headWs_append_left _ _ (escChar_ne_nil c)]
    exact headWs_escChar c hc

theorem escapeChars_cons_ne_nil (c : Char) (cs : List Char) :
    escapeChars (c :: cs) ≠ [] := by
  unfold escapeChars
  rw [List.map_cons, List.flatten_cons]
  intro he
  exact escChar_ne_nil c (List.append_eq_nil.mp he).1

theorem lastWs_escapeChars (l : List Char) (h : lastWs l = false) :
    lastWs (escapeChars l) = false := by
  induction l with
  | nil => rfl
  | cons c cs ih =>
    cases cs with
    | nil =>
      have hc : isPyWs c = false := by simpa [lastWs] using h
      unfold escapeChars
      rw [List.map_cons]
      simp only [List.map_nil, List.flatten_cons, List.flatten_nil, List.append_nil]
      exact lastWs_escChar c hc
    | cons c2 cs2 =>
      have h' : lastWs (c2 :: cs2) = false := by
        simpa [lastWs, List.getLast?_cons_cons] using h
      have hrec := ih h'
      unfold escapeChars at hrec ⊢
      rw [List.map_cons, List.flatten_cons]
      rw [lastWs_append_right _ _ (by
        have := escapeChars_cons_ne_nil c2 cs2
        unfold escapeChars at this
        exact this)]
      exact hrec

theorem length_escChar_ge (c : Char) : 1 ≤ (escChar c).length := by
  unfold escChar
  split_ifs <;> simp

theorem length_escChar_special (c : Char) (h : htmlSpecialChars.contains c = true) :
    2 ≤ (escChar c).length := by
  have hm : c ∈ htmlSpecialChars := by simpa using h
  simp only [htmlSpecialChars, List.mem_cons, List.mem_singleton] at hm
  rcases hm with rfl | rfl | rfl | rfl | rfl | h0
  · decide
  · decide
  · decide
  · decide
  · decide
  · simp at h0

theorem length_escapeChars_ge (l : List Char) :
    l.length ≤ (escapeChars l).length := by
  induction l with
  | nil => simp [escapeChars]
  | cons c cs ih =>
    unfold escapeChars at ih ⊢
    rw [List.map_cons, List.flatten_cons, List.length_append, List.length_cons]
    have := length_escChar_ge c
    omega

theorem length_escapeChars_lt (l : List Char) (h : hasSpecial l = true) :
    l.length < (escapeChars l).length := by
  induction l with
  | nil => simp [hasSpecial] at h
  | cons c cs ih =>
    unfold escapeChars at ih ⊢
    rw [List.map_cons, List.flatten_cons, List.length_append, List.length_cons]
    by_cases hc : htmlSpecialChars.contains c = true
    · have h2 := length_escChar_special c hc
      have h3 := length_escapeChars_ge cs
      unfold escapeChars at h3
      omega
    · have hcs : hasSpecial cs = true := by
        unfold hasSpecial at h ⊢
        rw [List.any_cons, Bool.or_eq_true] at h
        rcases h with h | h
        · exact absurd h hc
        · exact h
      have := ih hcs
      have h1 := length_escChar_ge c
      omega

theorem dropWhile_eq_self_of_headWs (l : List Char) (h : headWs l = false) :
    l.dropWhile isPyWs = l := by
  cases l with
  | nil => rfl
  | cons c cs =>
    have : isPyWs c = false := by simpa [headWs] using h
    simp [List.dropWhile_cons, this]

theorem stripChars_eq_self (l : List Char) (h : hasEdgeWs l = false) :
    stripChars l = l := by
  unfold hasEdgeWs at h
  rw [Bool.or_eq_false_iff] at h
  unfold stripChars
  rw [dropWhile_eq_self_of_headWs l h.1]
  rw [dropWhile_eq_self_of_headWs l.reverse (by
    unfold headWs
    rw [List.head?_reverse]
    exact h.2)]
  exact List.reverse_reverse l

theorem sanitize_no_edge_ws (s : String) :
    hasEdgeWs (escapeChars (stripChars s.toList)) = false := by
  unfold hasEdgeWs
  rw [headWs_escapeChars _ (headWs_stripChars _),
      lastWs_escapeChars _ (lastWs_stripChars _)]
  rfl

/-- C10.  With sanitization enabled, a string leaf is stored as the
HTML-escape of its whitespace-stripped form (and `insert`/`update` store
exactly the sanitized record); a sanitized string never starts or ends
with whitespace, and never equals an original that held an HTML-special
character or surrounding whitespace. -/
theorem sanitize_stored_string_properties :
    (∀ s : String, sanitize_input (.str s) = .str (htmlEscape (pyStrip s))) ∧
    (∀ (k : String) (v : PyAny) (l : List (String × PyAny)),
      sanitizeDictA ((k, v) :: l) = (k, sanitize_input v) :: sanitizeDictA l) ∧
    (∀ (v : PyAny) (l : List PyAny),
      sanitizeListA (v :: l) = sanitize_input v :: sanitizeListA l) ∧
    (∀ (t : String) (data : List (String × PyVal)) (st : Store),
      dbInsert t data true st = dbInsert t (sanitizeRecord data) false st) ∧
    (∀ (t : String) (data : List (String × PyVal)) (wc : String)
        (wp : List PyVal) (st : Store),
      dbUpdate t data wc wp true st = dbUpdate t (sanitizeRecord data) wc wp false st) ∧
    (∀ (k s : String) (data : List (String × PyVal)),
      (k, PyVal.str s) ∈ data →
        (k, PyVal.str (sanitizeStr s)) ∈ sanitizeRecord data) ∧
    (∀ s : String, hasEdgeWs (sanitizeStr s).toList = false) ∧
    (∀ s : String, hasSpecial s.toList = true ∨ hasEdgeWs s.toList = true →
      sanitizeStr s ≠ s) := by
  refine ⟨fun s => by simp [sanitize_input, sanitizeStr], fun k v l => by simp [sanitizeDictA],
    fun v l => by simp [sanitizeListA], fun t data st => rfl,
    fun t data wc wp st => rfl, ?_, fun s => sanitize_no_edge_ws s, ?_⟩
  · intro k s data hmem
    exact List.mem_map.mpr ⟨(k, .str s), hmem, rfl⟩
  · intro s hcase heq
    have htl : escapeChars (stripChars s.toList) = s.toList :=
      congrArg String.toList heq
    have hedge : hasEdgeWs s.toList = false := by
      have h7 := sanitize_no_edge_ws s
      rwa [htl] at h7
    rcases hcase with hs | he
    · rw [stripChars_eq_self _ hedge] at htl
      have hlt := length_escapeChars_lt s.toList hs
      rw [htl] at hlt
      omega
    · rw [he] at hedge
      exact absurd hedge (by simp)

theorem sanitize_stored_string_properties_witness :
    ("username", PyVal.str (sanitizeStr " a<b ")) ∈
      sanitizeRecord [("username", PyVal.str " a<b ")] ∧
    sanitizeStr " a<b " ≠ " a<b " :=
  ⟨sanitize_stored_string_properties.2.2.2.2.2.1 "username" " a<b "
      [("username", PyVal.str " a<b ")] (by decide),
   sanitize_stored_string_properties.2.2.2.2.2.2.2 " a<b "
      (Or.inl (by decide))⟩

/-! ## Migration lemmas (C7, C8, C9) -/

/-- The migrations table exists with its schema (after
`_ensure_migrations_table`). -/
def migOkB (st : Store) : Bool :=
  match findTable st "migrations" with
  | some td => td.schema == migrationsSchema
  | none => false

/-- The migration file exists, holds a `Migration` subclass, and its `up`
returns `True` without raising. -/
def upSucceeds (m : String) (dir : List MigFile) : Bool :=
  match findFile dir m with
  | some f =>
    match f.cls with
    | some c => c.upResult == some true
    | none => false
  | none => false

/-- Likewise for `down`. -/
def downSucceeds (m : String) (dir : List MigFile) : Bool :=
  match findFile dir m with
  | some f =>
    match f.cls with
    | some c => c.downResult == some true
    | none => false
  | none => false

theorem migOkB_elim {st : Store} (h : migOkB st = true) :
    ∃ td, findTable st "migrations" = some td ∧ td.schema = migrationsSchema := by
  unfold migOkB at h
  cases hf : findTable st "migrations" with
  | none => rw [hf] at h; exact absurd h (by simp)
  | some td =>
    rw [hf] at h
    exact ⟨td, rfl, by simpa using h⟩

theorem runStmt_select_frame {t : String} {cols : List String}
    {w : Option String} {o : Option String} {params : List PyVal}
    {st st' : Store} {r : ExecResult}
    (h : runStmt (.selectCols t cols w o) params st = .ok (st', r)) : st' = st := by
  simp only [runStmt] at h
  split at h
  next => exact absurd h (by simp)
  next td hf =>
    split at h
    next => exact absurd h (by simp)
    next =>
      split at h
      · injection h with h
        injection h with h1 h2
        exact h1.symm
      · split at h
        next => exact absurd h (by simp)
        next =>
          split at h
          · injection h with h
            injection h with h1 h2
            exact h1.symm
          · exact absurd h (by simp)

theorem runStmt_select_all {t : String} {cols : List String} {o : Option String}
    {params : List PyVal} {st : Store} {td : TableData}
    (hf : findTable st t = some td) (hca : cols.all (colOk td) = true) :
    runStmt (.selectCols t cols none o) params st =
      .ok (st, ⟨cols, td.rows.map (projectRow td cols), 0, 0⟩) := by
  simp only [runStmt, hf]
  simp [hca]

theorem migRows_eq {st : Store} {td : TableData}
    (hf : findTable st "migrations" = some td) : migRows st = td.rows := by
  unfold migRows
  rw [hf]

theorem migRows_setTable {st : Store} {td : TableData}
    (hf : findTable st "migrations" = some td) (n : Nat) (rows' : List RowData) :
    migRows (setTable st ⟨td.schema, n, rows'⟩) = rows' := by
  unfold migRows
  rw [findTable_setTable st td ⟨td.schema, n, rows'⟩ "migrations" hf rfl]

theorem migOkB_setTable {st : Store} {td : TableData}
    (hf : findTable st "migrations" = some td)
    (hs : td.schema = migrationsSchema) (n : Nat) (rows' : List RowData) :
    migOkB (setTable st ⟨td.schema, n, rows'⟩) = true := by
  unfold migOkB
  rw [findTable_setTable st td ⟨td.schema, n, rows'⟩ "migrations" hf rfl]
  simpa using hs

theorem filterMap_congr_mem {α β : Type} (f g : α → Option β) (l : List α)
    (h : ∀ a ∈ l, f a = g a) : l.filterMap f = l.filterMap g := by
  induction l with
  | nil => rfl
  | cons x xs ih =>
    rw [List.filterMap_cons, List.filterMap_cons, h x (by simp),
      ih (fun a ha => h a (by simp [ha]))]

theorem versionsOf_project (td : TableData) (hs : td.schema = migrationsSchema)
    (rows : List RowData) :
    versionsOf (rows.map (projectRow td ["version"])) =
      rows.filterMap (fun r => match lookupField "version" r.vals with
        | some (.str s) => some s
        | _ => none) := by
  have hid : td.schema.idCol = some "id" := by rw [hs]; rfl
  unfold versionsOf
  rw [List.filterMap_map]
  refine filterMap_congr_mem _ _ _ ?_
  intro r _
  have hval : lookupField "version" (projectRow td ["version"] r) =
      some ((lookupField "version" r.vals).getD PyVal.vnull) := by
    unfold projectRow colValue
    rw [hid]
    simp [lookupField]
  show (match lookupField "version" (projectRow td ["version"] r) with
    | some (.str s) => some s
    | _ => none) =
    (match lookupField "version" r.vals with
    | some (.str s) => some s
    | _ => none)
  rw [hval]
  cases hl : lookupField "version" r.vals with
  | none => simp
  | some v => cases v <;> simp

theorem get_applied_eq {st : Store} (h : migOkB st = true) :
    get_applied_migrations st = .ok (st, appliedOf st) := by
  obtain ⟨td, hf, hs⟩ := migOkB_elim h
  have hca : (["version"] : List String).all (colOk td) = true := by
    simp [colOk, hs, migrationsSchema]
  have hrun := @runStmt_select_all "migrations" ["version"] (some "applied_at")
    [] st td hf hca
  have hprev : prevent_sql_injection
      (render (.selectCols "migrations" ["version"] none (some "applied_at")))
      [] = .ok true := by
    unfold prevent_sql_injection
    simp
  have hex : executeQ (.selectCols "migrations" ["version"] none (some "applied_at"))
      [] true st =
      .ok (st, ⟨["version"], td.rows.map (projectRow td ["version"]), 0, 0⟩) := by
    unfold executeQ
    simp [hprev, hrun]
  unfold get_applied_migrations fetch_all
  simp only [hex]
  unfold appliedOf
  rw [migRows_eq hf, versionsOf_project td hs]

theorem get_pending_eq {mg : MigState} (h : migOkB mg.store = true) :
    get_pending_migrations mg = .ok (mg.store, pendingOf mg) := by
  unfold get_pending_migrations pendingOf
  rw [get_applied_eq h]

theorem mem_appliedOf_iff {st : Store} {td : TableData}
    (hf : findTable st "migrations" = some td) (m : String) :
    m ∈ appliedOf st ↔
      td.rows.any (fun r =>
        decide (lookupField "version" r.vals = some (.str m))) = true := by
  unfold appliedOf
  rw [migRows_eq hf, List.any_eq_true]
  constructor
  · intro hm
    obtain ⟨r, hr, hfr⟩ := List.mem_filterMap.mp hm
    refine ⟨r, hr, ?_⟩
    cases hl : lookupField "version" r.vals with
    | none => rw [hl] at hfr; simp at hfr
    | some v =>
      cases v with
      | str s =>
        rw [hl] at hfr
        simp at hfr
        subst hfr
        simp [hl]
      | int n => rw [hl] at hfr; simp at hfr
      | vnull => rw [hl] at hfr; simp at hfr
  · rintro ⟨r, hr, hd⟩
    have hlv : lookupField "version" r.vals = some (.str m) := of_decide_eq_true hd
    exact List.mem_filterMap.mpr ⟨r, hr, by rw [hlv]⟩

theorem pendingOf_fresh (mg : MigState) :
    ∀ m ∈ pendingOf mg, m ∉ appliedOf mg.store := by
  intro m hm
  unfold pendingOf at hm
  rw [List.mem_insertionSort] at hm
  have hfl := List.of_mem_filter hm
  intro hmem
  have : (appliedOf mg.store).contains m = true := List.elem_iff.mpr hmem
  rw [this] at hfl
  exact absurd hfl (by simp)

theorem runStmt_insert_pos {t : String} {cols : List String} {params : List PyVal}
    {st : Store} {td : TableData}
    (hf : findTable st t = some td)
    (hca : cols.all (colOk td) = true)
    (hlen : cols.length = params.length)
    (hu : uniqueViolation td (cols.zip params) = none) :
    runStmt (.insertInto t cols) params st =
      .ok (setTable st ⟨td.schema, td.nextId + 1,
        td.rows ++ [⟨td.nextId, cols.zip params⟩]⟩, ⟨[], [], td.nextId, 1⟩) := by
  simp only [runStmt, hf]
  simp [hca, hlen, hu]

theorem runStmt_delete_pos {t wc : String} {st : Store} {td : TableData} {wv : PyVal}
    (hf : findTable st t = some td) (hcw : colOk td wc = true) :
    runStmt (.deleteWhere t wc) [wv] st =
      .ok (setTable st ⟨td.schema, td.nextId,
        td.rows.filter (fun r => !decide (colValue td r wc = some wv))⟩,
        ⟨[], [], 0, td.rows.length -
          (td.rows.filter (fun r => !decide (colValue td r wc = some wv))).length⟩) := by
  simp only [runStmt, hf]
  simp [hcw]

/-- A successful `_apply_migration`: `up` ran, the version was recorded. -/
theorem apply_migration_ok {mg : MigState} {m : String}
    (hok : migOkB mg.store = true)
    (hup : upSucceeds m mg.dir = true)
    (hclean : sanitizeStr m = m)
    (hnot : m ∉ appliedOf mg.store) :
    ∃ mg', apply_migration m mg = (true, mg') ∧
      appliedOf mg'.store = appliedOf mg.store ++ [m] ∧
      mg'.dir = mg.dir ∧ migOkB mg'.store = true := by
  obtain ⟨td, hf, hs⟩ := migOkB_elim hok
  unfold upSucceeds at hup
  cases hfile : findFile mg.dir m with
  | none =>
    simp only [hfile] at hup
    exact absurd hup (by simp)
  | some f =>
    simp only [hfile] at hup
    cases hcls : f.cls with
    | none =>
      simp only [hcls] at hup
      exact absurd hup (by simp)
    | some c =>
      simp only [hcls] at hup
      have hupr : c.upResult = some true := by simpa using hup
      unfold apply_migration
      simp only [hfile, hcls, hupr]
      have hany : td.rows.any (fun r =>
          decide (lookupField "version" r.vals = some (.str m))) = false := by
        cases ha : td.rows.any (fun r =>
            decide (lookupField "version" r.vals = some (.str m))) with
        | false => rfl
        | true => exact absurd ((mem_appliedOf_iff hf m).mpr ha) hnot
      have hu : uniqueViolation td
          (["version", "description"].zip
            [PyVal.str (sanitizeStr m), PyVal.str (sanitizeStr c.description)]) =
            none := by
        unfold uniqueViolation
        rw [List.find?_eq_none]
        intro u hu2
        rw [hs] at hu2
        simp only [migrationsSchema] at hu2
        rw [List.mem_singleton] at hu2
        subst hu2
        have hlv : lookupField "version"
            (["version", "description"].zip
              [PyVal.str (sanitizeStr m), PyVal.str (sanitizeStr c.description)]) =
            some (PyVal.str m) := by
          simp [lookupField, hclean]
        rw [hlv]
        simp only [Option.any_some]
        rw [hany]
        simp
      have hca : (["version", "description"] : List String).all (colOk td) = true := by
        simp [colOk, hs, migrationsSchema]
      have hrun := @runStmt_insert_pos "migrations" ["version", "description"]
        [PyVal.str (sanitizeStr m), PyVal.str (sanitizeStr c.description)]
        mg.store td hf hca rfl hu
      have hins : dbInsert "migrations"
          [("version", .str m), ("description", .str c.description)] true mg.store =
          .ok (setTable mg.store ⟨td.schema, td.nextId + 1,
            td.rows ++ [⟨td.nextId, ["version", "description"].zip
              [PyVal.str (sanitizeStr m), PyVal.str (sanitizeStr c.description)]⟩]⟩,
            some td.nextId) := by
        have hq : executeQ (.insertInto "migrations" ["version", "description"])
            [PyVal.str (sanitizeStr m), PyVal.str (sanitizeStr c.description)]
            false mg.store =
            .ok (setTable mg.store ⟨td.schema, td.nextId + 1,
              td.rows ++ [⟨td.nextId, ["version", "description"].zip
                [PyVal.str (sanitizeStr m), PyVal.str (sanitizeStr c.description)]⟩]⟩,
              ⟨[], [], td.nextId, 1⟩) := by
          unfold executeQ
          simp [hrun]
        show (match executeQ (.insertInto "migrations" ["version", "description"])
            [PyVal.str (sanitizeStr m), PyVal.str (sanitizeStr c.description)]
            false mg.store with
          | .error e => (.error e : Except DbErr (Store × Option Nat))
          | .ok (st2, r) => .ok (st2, some r.lastrowid)) = _
        rw [hq]
      rw [hins]
      refine ⟨_, rfl, ?_, rfl, migOkB_setTable hf hs _ _⟩
      unfold appliedOf
      rw [migRows_setTable hf, migRows_eq hf, List.filterMap_append]
      congr 1
      simp [lookupField, hclean]

/-- A failed `_apply_migration` (file missing, no `Migration` subclass, or
`up` raising or returning falsy) leaves the state untouched: nothing is
recorded, the migration stays pending. -/
theorem apply_migration_fail {mg : MigState} {m : String}
    (h : upSucceeds m mg.dir = false) :
    apply_migration m mg = (false, mg) := by
  unfold upSucceeds at h
  unfold apply_migration
  cases hfile : findFile mg.dir m with
  | none => simp [hfile]
  | some f =>
    simp only [hfile] at h ⊢
    cases hcls : f.cls with
    | none => simp [hcls]
    | some c =>
      simp only [hcls] at h ⊢
      cases hu : c.upResult with
      | none => simp [hu]
      | some b =>
        cases b with
        | false => simp [hu]
        | true => rw [hu] at h; exact absurd h (by simp)

theorem revert_migration_fail {mg : MigState} {m : String}
    (h : downSucceeds m mg.dir = false) :
    revert_migration m mg = (false, mg) := by
  unfold downSucceeds at h
  unfold revert_migration
  cases hfile : findFile mg.dir m with
  | none => simp [hfile]
  | some f =>
    simp only [hfile] at h ⊢
    cases hcls : f.cls with
    | none => simp [hcls]
    | some c =>
      simp only [hcls] at h ⊢
      cases hd : c.downResult with
      | none => simp [hd]
      | some b =>
        cases b with
        | false => simp [hd]
        | true => rw [hd] at h; exact absurd h (by simp)

theorem filterMap_version_filter (rows : List RowData) (m : String) :
    ((rows.filter (fun r =>
        !decide (lookupField "version" r.vals = some (.str m)))).filterMap
      (fun r => match lookupField "version" r.vals with
        | some (.str s) => some s
        | _ => none)) =
    (rows.filterMap (fun r => match lookupField "version" r.vals with
        | some (.str s) => some s
        | _ => none)).filter (fun s => !(s == m)) := by
  induction rows with
  | nil => rfl
  | cons r rest ih =>
    cases hl : lookupField "version" r.vals with
    | none =>
      rw [List.filter_cons, List.filterMap_cons]
      simp only [hl]
      simpa [hl] using ih
    | some v =>
      cases v with
      | str s =>
        by_cases hsm : s = m
        · subst hsm
          rw [List.filter_cons, List.filterMap_cons]
          simp only [hl]
          simpa [hl] using ih
        · rw [List.filter_cons, List.filterMap_cons]
          simp only [hl]
          simpa [hl, hsm] using ih
      | int n =>
        rw [List.filter_cons, List.filterMap_cons]
        simp only [hl]
        simpa [hl] using ih
      | vnull =>
        rw [List.filter_cons, List.filterMap_cons]
        simp only [hl]
        simpa [hl] using ih

/-- A successful `_revert_migration`: `down` ran, the version's record was
deleted. -/
theorem revert_migration_ok {mg : MigState} {m : String}
    (hok : migOkB mg.store = true)
    (hdown : downSucceeds m mg.dir = true) :
    ∃ mg', revert_migration m mg = (true, mg') ∧
      appliedOf mg'.store = (appliedOf mg.store).filter (fun s => !(s == m)) ∧
      mg'.dir = mg.dir ∧ migOkB mg'.store = true := by
  obtain ⟨td, hf, hs⟩ := migOkB_elim hok
  unfold downSucceeds at hdown
  cases hfile : findFile mg.dir m with
  | none =>
    simp only [hfile] at hdown
    exact absurd hdown (by simp)
  | some f =>
    simp only [hfile] at hdown
    cases hcls : f.cls with
    | none =>
      simp only [hcls] at hdown
      exact absurd hdown (by simp)
    | some c =>
      simp only [hcls] at hdown
      have hdr : c.downResult = some true := by simpa using hdown
      unfold revert_migration
      simp only [hfile, hcls, hdr]
      have hcw : colOk td "version" = true := by
        simp [colOk, hs, migrationsSchema]
      have hrun := @runStmt_delete_pos "migrations" "version" mg.store td
        (PyVal.str m) hf hcw
      have hprev : prevent_sql_injection
          (render (.deleteWhere "migrations" "version")) [PyVal.str m] = .ok true :=
        prevent_ok_of_placeholder _ _ (by decide)
      have hdel : dbDelete "migrations" "version" [PyVal.str m] mg.store =
          .ok (setTable mg.store ⟨td.schema, td.nextId,
            td.rows.filter (fun r =>
              !decide (colValue td r "version" = some (.str m)))⟩,
            td.rows.length - (td.rows.filter (fun r =>
              !decide (colValue td r "version" = some (.str m)))).length) := by
        unfold dbDelete executeQ
        simp [hprev, hrun]
      rw [hdel]
      refine ⟨_, rfl, ?_, rfl, migOkB_setTable hf hs _ _⟩
      unfold appliedOf
      rw [migRows_setTable hf, migRows_eq hf]
      have hcv : ∀ r ∈ td.rows,
          (fun r => !decide (colValue td r "version" = some (PyVal.str m))) r =
          (fun r => !decide (lookupField "version" r.vals = some (PyVal.str m))) r := by
        intro r _
        have : colValue td r "version" = lookupField "version" r.vals := by
          unfold colValue
          rw [hs]
          simp [migrationsSchema]
        simp only [this]
      rw [List.filter_congr hcv]
      exact filterMap_version_filter td.rows m

/-- Successful batch application: every version is appended to the applied
list, in batch order. -/
theorem applyList_ok {names : List String} {mg : MigState}
    (hok : migOkB mg.store = true)
    (hall : ∀ m ∈ names, upSucceeds m mg.dir = true ∧ sanitizeStr m = m)
    (hnodup : names.Nodup)
    (hfresh : ∀ m ∈ names, m ∉ appliedOf mg.store) :
    ∃ mg', applyList names mg = (true, mg') ∧
      appliedOf mg'.store = appliedOf mg.store ++ names ∧
      mg'.dir = mg.dir ∧ migOkB mg'.store = true := by
  induction names generalizing mg with
  | nil => exact ⟨mg, rfl, by simp, rfl, hok⟩
  | cons m rest ih =>
    obtain ⟨hup, hclean⟩ := hall m (by simp)
    obtain ⟨mg1, hap, happ, hdir, hok1⟩ :=
      apply_migration_ok hok hup hclean (hfresh m (by simp))
    rw [List.nodup_cons] at hnodup
    obtain ⟨mg', hal, ha2, hd2, hok2⟩ := @ih mg1 hok1
      (fun x hx => by
        rw [hdir]
        exact hall x (by simp [hx]))
      hnodup.2
      (fun x hx => by
        rw [happ]
        intro hmem
        rcases List.mem_append.mp hmem with hmem | hmem
        · exact hfresh x (by simp [hx]) hmem
        · rw [List.mem_singleton] at hmem
          exact hnodup.1 (hmem ▸ hx))
    refine ⟨mg', ?_, ?_, by rw [hd2, hdir], hok2⟩
    · unfold applyList
      rw [hap]
      exact hal
    · rw [ha2, happ, List.append_assoc]
      rfl

theorem applyList_append_ok {xs ys : List String} {mg mg1 : MigState}
    (h : applyList xs mg = (true, mg1)) :
    applyList (xs ++ ys) mg = applyList ys mg1 := by
  induction xs generalizing mg with
  | nil =>
    unfold applyList at h
    injection h with _ h2
    rw [h2]
    rfl
  | cons x xs ih =>
    cases hap : apply_migration x mg with
    | mk b mg2 =>
      have hx : (match apply_migration x mg with
          | (true, mg') => applyList xs mg'
          | (false, mg') => (false, mg')) = (true, mg1) := h
      rw [hap] at hx
      cases b with
      | false => simp at hx
      | true =>
        have hgoal : applyList ((x :: xs) ++ ys) mg =
            (match apply_migration x mg with
              | (true, mg') => applyList (xs ++ ys) mg'
              | (false, mg') => (false, mg')) := rfl
        rw [hgoal, hap]
        exact ih hx

/-- Batch application stopping at the first failing migration: the already
applied head stays applied, the failing one records nothing. -/
theorem applyList_fail {done : List String} {bad : String} {rest : List String}
    {mg : MigState}
    (hok : migOkB mg.store = true)
    (hall : ∀ m ∈ done, upSucceeds m mg.dir = true ∧ sanitizeStr m = m)
    (hnodup : done.Nodup)
    (hfresh : ∀ m ∈ done, m ∉ appliedOf mg.store)
    (hbad : upSucceeds bad mg.dir = false) :
    ∃ mg', applyList (done ++ bad :: rest) mg = (false, mg') ∧
      appliedOf mg'.store = appliedOf mg.store ++ done ∧
      mg'.dir = mg.dir ∧ migOkB mg'.store = true := by
  obtain ⟨mg1, hal, ha, hd, hok1⟩ := applyList_ok hok hall hnodup hfresh
  refine ⟨mg1, ?_, ha, hd, hok1⟩
  rw [applyList_append_ok hal]
  unfold applyList
  rw [apply_migration_fail (by rw [hd]; exact hbad)]

/-- Successful batch revert: exactly the named versions disappear from the
applied list. -/
theorem revertList_ok {names : List String} {mg : MigState}
    (hok : migOkB mg.store = true)
    (hall : ∀ m ∈ names, downSucceeds m mg.dir = true) :
    ∃ mg', revertList names mg = (true, mg') ∧
      appliedOf mg'.store = (appliedOf mg.store).filter
        (fun s => !names.contains s) ∧
      mg'.dir = mg.dir ∧ migOkB mg'.store = true := by
  induction names generalizing mg with
  | nil =>
    refine ⟨mg, rfl, ?_, rfl, hok⟩
    have : ∀ s ∈ appliedOf mg.store, (!([] : List String).contains s) = true := by
      intro s _
      rfl
    rw [List.filter_eq_self.mpr this]
  | cons m rest ih =>
    obtain ⟨mg1, hrv, happ, hdir, hok1⟩ :=
      revert_migration_ok hok (hall m (by simp))
    obtain ⟨mg', hrl, ha2, hd2, hok2⟩ := @ih mg1 hok1
      (fun x hx => by
        rw [hdir]
        exact hall x (by simp [hx]))
    refine ⟨mg', ?_, ?_, by rw [hd2, hdir], hok2⟩
    · unfold revertList
      rw [hrv]
      exact hrl
    · rw [ha2, happ, List.filter_filter]
      refine List.filter_congr ?_
      intro s _
      simp only [List.contains_cons, Bool.not_or]
      cases hsm : s == m <;> cases hrc : rest.contains s <;> simp [hsm, hrc]

/-- Batch revert stopping at the first failing `down`: nothing changes from
that point on. -/
theorem revertList_fail_head {m : String} {rest : List String} {mg : MigState}
    (h : downSucceeds m mg.dir = false) :
    revertList (m :: rest) mg = (false, mg) := by
  unfold revertList
  rw [revert_migration_fail h]

theorem strLeAux_total (a b : List Char) :
    strLeAux a b = true ∨ strLeAux b a = true := by
  induction a generalizing b with
  | nil => left; rfl
  | cons x xs ih =>
    cases b with
    | nil => right; rfl
    | cons y ys =>
      by_cases hxy : x = y
      · subst hxy
        unfold strLeAux
        rw [if_pos rfl, if_pos rfl]
        exact ih ys
      · unfold strLeAux
        rw [if_neg hxy, if_neg (Ne.symm hxy)]
        rcases lt_trichotomy x y with h | h | h
        · left; exact decide_eq_true h
        · exact absurd h hxy
        · right; exact decide_eq_true h

theorem strLeAux_trans (a b c : List Char) (h1 : strLeAux a b = true)
    (h2 : strLeAux b c = true) : strLeAux a c = true := by
  induction a generalizing b c with
  | nil => rfl
  | cons x xs ih =>
    cases b with
    | nil => simp [strLeAux] at h1
    | cons y ys =>
      cases c with
      | nil => simp [strLeAux] at h2
      | cons z zs =>
        unfold strLeAux at h1 h2 ⊢
        by_cases hxy : x = y
        · subst hxy
          rw [if_pos rfl] at h1
          by_cases hyz : x = z
          · subst hyz
            rw [if_pos rfl] at h2 ⊢
            exact ih ys zs h1 h2
          · rw [if_neg hyz] at h2 ⊢
            exact h2
        · rw [if_neg hxy] at h1
          have hlt1 : x < y := of_decide_eq_true h1
          by_cases hyz : y = z
          · subst hyz
            rw [if_neg hxy]
            exact decide_eq_true hlt1
          · rw [if_neg hyz] at h2
            have hlt2 : y < z := of_decide_eq_true h2
            have hlt : x < z := lt_trans hlt1 hlt2
            rw [if_neg (ne_of_lt hlt)]
            exact decide_eq_true hlt

instance : IsTotal String strLeP :=
  ⟨fun a b => strLeAux_total a.toList b.toList⟩

instance : IsTrans String strLeP :=
  ⟨fun a b c h1 h2 => strLeAux_trans a.toList b.toList c.toList h1 h2⟩

/-- Python `sorted` output is ascending in the version-string order. -/
theorem pendingOf_sorted (mg : MigState) : List.Sorted strLeP (pendingOf mg) :=
  List.sorted_insertionSort strLeP _

theorem contains_reverse (l : List String) (s : String) :
    l.reverse.contains s = l.contains s := by
  show List.elem s l.reverse = List.elem s l
  by_cases h : s ∈ l
  · rw [List.elem_iff.mpr h, List.elem_iff.mpr (List.mem_reverse.mpr h)]
  · have h1 : List.elem s l = false := by
      cases hc : List.elem s l
      · rfl
      · exact absurd (List.elem_iff.mp hc) h
    have h2 : List.elem s l.reverse = false := by
      cases hc : List.elem s l.reverse
      · rfl
      · exact absurd (List.mem_reverse.mp (List.elem_iff.mp hc)) h
    rw [h1, h2]

theorem filter_not_contains_drop {l : List String} {k : Nat} (h : l.Nodup) :
    l.filter (fun s => !((l.drop k).contains s)) = l.take k := by
  have hsplit := List.take_append_drop k l
  have hnd : (l.take k ++ l.drop k).Nodup := by rw [hsplit]; exact h
  have hdisj := (List.nodup_append.mp hnd).2.2
  have h1 : (l.take k).filter (fun s => !((l.drop k).contains s)) = l.take k := by
    rw [List.filter_eq_self]
    intro a ha
    have hnm : a ∉ l.drop k := fun hm => hdisj ha hm
    simp
    exact hnm
  have h2 : (l.drop k).filter (fun s => !((l.drop k).contains s)) = [] := by
    rw [List.filter_eq_nil_iff]
    intro a ha
    simp
    exact ha
  have hfa := @List.filter_append String
    (fun s => !((l.drop k).contains s)) (l.take k) (l.drop k)
  rw [hsplit] at hfa
  rw [hfa, h1, h2, List.append_nil]

/-- The batch `migrate(target)` would process: pending versions filtered by
the target bound (all of them when the target is unset). -/
def todoOf (target : Option String) (mg : MigState) : List String :=
  match target with
  | some t => (pendingOf mg).filter (fun m => strLe m t)
  | none => pendingOf mg

/-- Successful `migrate(target)`: exactly the bounded pending list is
applied, appended in ascending order to the applied history. -/
theorem migrate_ok {mg : MigState} (target : Option String)
    (hok : migOkB mg.store = true)
    (hall : ∀ m ∈ todoOf target mg, upSucceeds m mg.dir = true ∧ sanitizeStr m = m)
    (hnodup : (pendingOf mg).Nodup) :
    ∃ mg', migrate target mg = .ok (true, mg') ∧
      appliedOf mg'.store = appliedOf mg.store ++ todoOf target mg ∧
      mg'.dir = mg.dir ∧ migOkB mg'.store = true := by
  have hbody : migrate target mg = (if (pendingOf mg).isEmpty then .ok (true, mg)
      else .ok (applyList (todoOf target mg) mg)) := by
    unfold migrate
    rw [get_pending_eq hok]
    rfl
  have hfresh : ∀ m ∈ todoOf target mg, m ∉ appliedOf mg.store := by
    intro m hm
    apply pendingOf_fresh
    unfold todoOf at hm
    cases target with
    | none => exact hm
    | some t => exact List.mem_of_mem_filter hm
  have hnodup' : (todoOf target mg).Nodup := by
    unfold todoOf
    cases target with
    | none => exact hnodup
    | some t => exact hnodup.filter _
  rw [hbody]
  by_cases hemp : (pendingOf mg).isEmpty
  · have hpe : pendingOf mg = [] := by simpa [List.isEmpty_iff] using hemp
    rw [if_pos hemp]
    refine ⟨mg, rfl, ?_, rfl, hok⟩
    unfold todoOf
    rw [hpe]
    cases target <;> simp
  · rw [if_neg hemp]
    obtain ⟨mg', h1, h2, h3, h4⟩ := applyList_ok hok hall hnodup' hfresh
    rw [h1]
    exact ⟨mg', rfl, h2, h3, h4⟩

/-- Successful `rollback(steps)` for `steps ≥ 1`: exactly the last
`min steps count` applied versions are reverted (in reverse application
order) and the applied history becomes its prefix. -/
theorem rollback_ok {mg : MigState} {steps : Nat}
    (hok : migOkB mg.store = true)
    (hsteps : 1 ≤ steps)
    (hnodup : (appliedOf mg.store).Nodup)
    (hall : ∀ m ∈ (appliedOf mg.store).drop ((appliedOf mg.store).length - steps),
      downSucceeds m mg.dir = true) :
    ∃ mg', rollback steps mg = .ok (true, mg') ∧
      appliedOf mg'.store =
        (appliedOf mg.store).take ((appliedOf mg.store).length - steps) ∧
      mg'.dir = mg.dir := by
  have hbody : rollback steps mg = (if (appliedOf mg.store).isEmpty then .ok (true, mg)
      else .ok (revertList (pySliceLast steps (appliedOf mg.store)).reverse mg)) := by
    unfold rollback
    rw [get_applied_eq hok]
  have hslice : pySliceLast steps (appliedOf mg.store) =
      (appliedOf mg.store).drop ((appliedOf mg.store).length - steps) := by
    unfold pySliceLast
    rw [if_neg (by omega)]
  rw [hbody]
  by_cases hemp : (appliedOf mg.store).isEmpty
  · have hpe : appliedOf mg.store = [] := by simpa [List.isEmpty_iff] using hemp
    rw [if_pos hemp]
    refine ⟨mg, rfl, ?_, rfl⟩
    rw [hpe]
    simp
  · rw [if_neg hemp, hslice]
    obtain ⟨mg', h1, h2, h3, _⟩ := revertList_ok hok
      (fun m hm => hall m (List.mem_reverse.mp hm))
    rw [h1]
    refine ⟨mg', rfl, ?_, h3⟩
    rw [h2]
    have hcongr : ∀ s ∈ appliedOf mg.store,
        (fun s => !(((appliedOf mg.store).drop
          ((appliedOf mg.store).length - steps)).reverse.contains s)) s =
        (fun s => !(((appliedOf mg.store).drop
          ((appliedOf mg.store).length - steps)).contains s)) s := by
      intro s _
      simp only [contains_reverse]
    rw [List.filter_congr hcongr]
    exact filter_not_contains_drop hnodup

theorem get_applied_frame {st st' : Store} {l : List String}
    (h : get_applied_migrations st = .ok (st', l)) : st' = st := by
  unfold get_applied_migrations fetch_all at h
  cases hq : executeQ (.selectCols "migrations" ["version"] none (some "applied_at"))
      [] true st with
  | error e => rw [hq] at h; exact absurd h (by simp)
  | ok v =>
    obtain ⟨st2, r⟩ := v
    rw [hq] at h
    injection h with h
    injection h with h1 h2
    have hq' : (match prevent_sql_injection
        (render (.selectCols "migrations" ["version"] none (some "applied_at"))) [] with
      | .error m => (.error (.securityError m) : Except DbErr (Store × ExecResult))
      | .ok _ =>
        match runStmt (.selectCols "migrations" ["version"] none (some "applied_at"))
            [] st with
        | .error e => .error (.databaseError (wrapDbMsg e))
        | .ok r => .ok r) = .ok (st2, r) := hq
    cases hp : prevent_sql_injection
        (render (.selectCols "migrations" ["version"] none (some "applied_at"))) [] with
    | error m => rw [hp] at hq'; exact absurd hq' (by simp)
    | ok b =>
      rw [hp] at hq'
      cases hr : runStmt (.selectCols "migrations" ["version"] none (some "applied_at"))
          [] st with
      | error e => rw [hr] at hq'; exact absurd hq' (by simp)
      | ok v2 =>
        obtain ⟨sta, ra⟩ := v2
        rw [hr] at hq'
        injection hq' with hq'
        injection hq' with hqa hqb
        rw [← h1, ← hqa]
        exact runStmt_select_frame hr

theorem get_pending_frame {mg : MigState} {st' : Store} {l : List String}
    (h : get_pending_migrations mg = .ok (st', l)) : st' = mg.store := by
  unfold get_pending_migrations at h
  cases hq : get_applied_migrations mg.store with
  | error e => rw [hq] at h; exact absurd h (by simp)
  | ok v =>
    obtain ⟨st2, ap⟩ := v
    rw [hq] at h
    injection h with h
    injection h with h1 h2
    rw [← h1]
    exact get_applied_frame hq

theorem status_frame {mg mg' : MigState} {res : StatusResult}
    (h : status mg = .ok (mg', res)) : mg' = mg := by
  unfold status at h
  cases hq : get_applied_migrations mg.store with
  | error e =>
    simp only [hq] at h
    exact absurd h (by simp)
  | ok v =>
    obtain ⟨st1, ap⟩ := v
    simp only [hq] at h
    have hst1 : st1 = mg.store := get_applied_frame hq
    cases hp : get_pending_migrations { mg with store := st1 } with
    | error e =>
      simp only [hp] at h
      exact absurd h (by simp)
    | ok v2 =>
      obtain ⟨st2, pe⟩ := v2
      simp only [hp] at h
      injection h with h
      injection h with h1 h2
      have hst2 : st2 = st1 := get_pending_frame hp
      rw [← h1, hst2, hst1]

theorem status_eq {mg : MigState} (hok : migOkB mg.store = true) :
    status mg = .ok (mg, ⟨appliedOf mg.store, pendingOf mg,
      (appliedOf mg.store).length, (pendingOf mg).length,
      (appliedOf mg.store).getLast?⟩) := by
  unfold status
  simp only [get_applied_eq hok]
  simp only [@get_pending_eq ⟨mg.store, mg.dir⟩ hok]

theorem pendingOf_after_all {mg mg' : MigState}
    (hdir : mg'.dir = mg.dir)
    (happ : appliedOf mg'.store = appliedOf mg.store ++ pendingOf mg) :
    pendingOf mg' = [] := by
  unfold pendingOf
  rw [hdir, happ]
  have hfil : ((mg.dir.map (·.mname)).filter
      (fun n => !((appliedOf mg.store ++ pendingOf mg).contains n))) = [] := by
    rw [List.filter_eq_nil_iff]
    intro n hn
    simp
    by_cases hap : n ∈ appliedOf mg.store
    · exact fun hno => absurd hap hno
    · intro _
      unfold pendingOf
      rw [List.mem_insertionSort]
      refine List.mem_filter.mpr ⟨hn, ?_⟩
      simp
      exact hap
  rw [hfil]
  rfl

/-! ## Migration claim theorems (C7, C8, C9) -/

/-- Two well-formed migration files, listed in (arbitrary) directory
order. -/
def demoDir : List MigFile :=
  [⟨"20240102_second", some ⟨some true, some true, "add b"⟩⟩,
   ⟨"20240101_first", some ⟨some true, some true, "add a"⟩⟩]

/-- The baseline store after `_ensure_migrations_table` (the match arm is
total: creating the table cannot fail). -/
def demoStore : Store :=
  match ensure_migrations_table emptyDb with
  | .ok st => st
  | .error _ => emptyDb

def demoMg : MigState := ⟨demoStore, demoDir⟩

/-- `demoMg` after `migrate(None)` applied both migrations. -/
def demoMg2 : MigState :=
  match migrate none demoMg with
  | .ok (_, mg) => mg
  | .error _ => demoMg

/-- `demoMg2` after `rollback(0)`. -/
def demoMg3 : MigState :=
  match rollback 0 demoMg2 with
  | .ok (_, mg) => mg
  | .error _ => demoMg2

/-- C7 counterexample.  `rollback(0)` does not revert zero migrations:
Python `applied[-0:]` is the whole list, so `rollback(0)` reverts EVERY
applied migration.  With both demo migrations applied, `rollback 0`
succeeds and empties the applied history, contradicting the claim that
`rollback(steps)` reverts exactly the most recently applied `steps`
migrations for every `steps`. -/
theorem rollback_zero_counterexample :
    appliedOf demoMg2.store = ["20240101_first", "20240102_second"] ∧
    rollback 0 demoMg2 = .ok (true, demoMg3) ∧
    appliedOf demoMg3.store = [] := by
  decide

/-- C7 amended.  `migrate(target)` applies exactly the pending versions
bounded by the target (all pending when the target is unset), appended in
ascending version-string order (the pending list is sorted); for
`steps ≥ 1`, `rollback(steps)` reverts exactly the most recently applied
`min steps count` migrations — processed in descending order of
application — leaving the applied-history prefix.  (`rollback 0` instead
reverts everything; see the counterexample.) -/
theorem migrate_rollback_order_amended :
    (∀ (mg : MigState) (target : Option String),
      migOkB mg.store = true →
      (∀ m ∈ todoOf target mg, upSucceeds m mg.dir = true ∧ sanitizeStr m = m) →
      (pendingOf mg).Nodup →
      ∃ mg', migrate target mg = .ok (true, mg') ∧
        appliedOf mg'.store = appliedOf mg.store ++ todoOf target mg ∧
        mg'.dir = mg.dir) ∧
    (∀ mg : MigState, List.Sorted strLeP (pendingOf mg)) ∧
    (∀ (mg : MigState) (t : String), todoOf (some t) mg =
      (pendingOf mg).filter (fun m => strLe m t)) ∧
    (∀ (mg : MigState) (steps : Nat),
      migOkB mg.store = true → 1 ≤ steps →
      (appliedOf mg.store).Nodup →
      (∀ m ∈ (appliedOf mg.store).drop ((appliedOf mg.store).length - steps),
        downSucceeds m mg.dir = true) →
      ∃ mg', rollback steps mg = .ok (true, mg') ∧
        appliedOf mg'.store =
          (appliedOf mg.store).take ((appliedOf mg.store).length - steps) ∧
        mg'.dir = mg.dir) := by
  refine ⟨?_, pendingOf_sorted, fun mg t => rfl, ?_⟩
  · intro mg target hok hall hnodup
    obtain ⟨mg', h1, h2, h3, _⟩ := migrate_ok target hok hall hnodup
    exact ⟨mg', h1, h2, h3⟩
  · intro mg steps hok hsteps hnodup hall
    exact rollback_ok hok hsteps hnodup hall

theorem migrate_rollback_order_amended_witness :
    (∃ mg', migrate none demoMg = .ok (true, mg') ∧
      appliedOf mg'.store = appliedOf demoMg.store ++ todoOf none demoMg ∧
      mg'.dir = demoMg.dir) ∧
    (∃ mg', rollback 1 demoMg2 = .ok (true, mg') ∧
      appliedOf mg'.store = (appliedOf demoMg2.store).take
        ((appliedOf demoMg2.store).length - 1) ∧
      mg'.dir = demoMg2.dir) :=
  ⟨migrate_rollback_order_amended.1 demoMg none (by decide) (by decide) (by decide),
   migrate_rollback_order_amended.2.2.2 demoMg2 1 (by decide) (by decide)
     (by decide) (by decide)⟩

/-- C8.  When a batch hits a migration whose `up` fails (missing file, no
`Migration` subclass, `up` raising or returning falsy), processing stops
and `migrate` reports failure; the batch's already-applied head remains
recorded, the failing migration records nothing (it stays pending), and
the untouched tail stays pending.  A successful `down` deletes exactly the
version's record; a failing `down` stops the rollback batch with no state
change. -/
theorem migration_failure_semantics :
    (∀ (mg : MigState) (done : List String) (bad : String) (rest : List String),
      migOkB mg.store = true →
      pendingOf mg = done ++ bad :: rest →
      (∀ m ∈ done, upSucceeds m mg.dir = true ∧ sanitizeStr m = m) →
      (done ++ bad :: rest).Nodup →
      upSucceeds bad mg.dir = false →
      ∃ mg', migrate none mg = .ok (false, mg') ∧
        appliedOf mg'.store = appliedOf mg.store ++ done ∧
        bad ∉ appliedOf mg'.store ∧
        (∀ r ∈ rest, r ∉ appliedOf mg'.store)) ∧
    (∀ (mg : MigState) (m : String),
      migOkB mg.store = true → downSucceeds m mg.dir = true →
      ∃ mg', revert_migration m mg = (true, mg') ∧
        m ∉ appliedOf mg'.store ∧
        appliedOf mg'.store = (appliedOf mg.store).filter (fun s => !(s == m))) ∧
    (∀ (mg : MigState) (m : String) (rest : List String),
      downSucceeds m mg.dir = false →
      revertList (m :: rest) mg = (false, mg)) ∧
    (∀ (mg : MigState) (m : String),
      upSucceeds m mg.dir = false → apply_migration m mg = (false, mg)) := by
  refine ⟨?_, ?_, fun mg m rest h => revertList_fail_head h,
    fun mg m h => apply_migration_fail h⟩
  · intro mg done bad rest hok hpend hall hnodup hbad
    have hfreshdone : ∀ m ∈ done, m ∉ appliedOf mg.store := fun m hm =>
      pendingOf_fresh mg m (by rw [hpend]; exact List.mem_append_left _ hm)
    have hbadfresh : bad ∉ appliedOf mg.store :=
      pendingOf_fresh mg bad (by rw [hpend]; simp)
    have hrestfresh : ∀ r ∈ rest, r ∉ appliedOf mg.store := fun r hr =>
      pendingOf_fresh mg r (by rw [hpend]; simp [hr])
    rw [List.nodup_append] at hnodup
    obtain ⟨hnd1, hnd2, hdisj⟩ := hnodup
    have hbadnotdone : bad ∉ done := fun hm => hdisj hm (by simp)
    have hrestnotdone : ∀ r ∈ rest, r ∉ done := fun r hr hm =>
      hdisj hm (by simp [hr])
    obtain ⟨mg', hal, ha, hd, _⟩ := applyList_fail hok hall hnd1 hfreshdone hbad
    have hbody : migrate none mg = (if (pendingOf mg).isEmpty then .ok (true, mg)
        else .ok (applyList (pendingOf mg) mg)) := by
      unfold migrate
      rw [get_pending_eq hok]
    have hne : ¬ (pendingOf mg).isEmpty = true := by
      rw [hpend]
      cases done <;> simp
    rw [hbody, if_neg hne, hpend, hal]
    refine ⟨mg', rfl, ha, ?_, ?_⟩
    · rw [ha]
      intro hmem
      rcases List.mem_append.mp hmem with hmem | hmem
      · exact hbadfresh hmem
      · exact hbadnotdone hmem
    · intro r hr
      rw [ha]
      intro hmem
      rcases List.mem_append.mp hmem with hmem | hmem
      · exact hrestfresh r hr hmem
      · exact hrestnotdone r hr hmem
  · intro mg m hok hdown
    obtain ⟨mg', h1, h2, h3, _⟩ := revert_migration_ok hok hdown
    refine ⟨mg', h1, ?_, h2⟩
    rw [h2]
    intro hmem
    have := List.of_mem_filter hmem
    simp at this

/-- The demo directory with a migration whose `up` raises between two good
ones. -/
def failDir : List MigFile :=
  [⟨"01_ok", some ⟨some true, some true, "ok"⟩⟩,
   ⟨"02_bad", some ⟨none, none, "raises"⟩⟩,
   ⟨"03_later", some ⟨some true, some true, "later"⟩⟩]

def failMg : MigState := ⟨demoStore, failDir⟩

theorem migration_failure_semantics_witness :
    (∃ mg', migrate none failMg = .ok (false, mg') ∧
      appliedOf mg'.store = appliedOf failMg.store ++ ["01_ok"] ∧
      "02_bad" ∉ appliedOf mg'.store ∧
      (∀ r ∈ ["03_later"], r ∉ appliedOf mg'.store)) ∧
    (∃ mg', revert_migration "20240102_second" demoMg2 = (true, mg') ∧
      "20240102_second" ∉ appliedOf mg'.store ∧
      appliedOf mg'.store = (appliedOf demoMg2.store).filter
        (fun s => !(s == "20240102_second"))) ∧
    revertList ["02_bad", "01_ok"] failMg = (false, failMg) ∧
    apply_migration "02_bad" failMg = (false, failMg) :=
  ⟨migration_failure_semantics.1 failMg ["01_ok"] "02_bad" ["03_later"]
      (by decide) (by decide) (by decide) (by decide) (by decide),
   migration_failure_semantics.2.1 demoMg2 "20240102_second"
      (by decide) (by decide),
   migration_failure_semantics.2.2.1 failMg "02_bad" ["01_ok"] (by decide),
   migration_failure_semantics.2.2.2 failMg "02_bad" (by decide)⟩

/-- C9.  `status()` only reads: on success it returns the manager state
unchanged (same store, same directory), reporting the applied list, the
pending list, both counts, and the current version — the latest applied
version, or nothing when none is applied.  After a `migrate(None)` that
applies every pending migration, `status()` reports an empty pending list
and a current version equal to the last-applied version. -/
theorem status_pure_and_contents :
    (∀ (mg mg' : MigState) (res : StatusResult),
      status mg = .ok (mg', res) → mg' = mg) ∧
    (∀ mg : MigState, migOkB mg.store = true →
      status mg = .ok (mg, ⟨appliedOf mg.store, pendingOf mg,
        (appliedOf mg.store).length, (pendingOf mg).length,
        (appliedOf mg.store).getLast?⟩)) ∧
    (∀ mg : MigState, migOkB mg.store = true →
      (∀ m ∈ pendingOf mg, upSucceeds m mg.dir = true ∧ sanitizeStr m = m) →
      (pendingOf mg).Nodup →
      ∃ mg' res, migrate none mg = .ok (true, mg') ∧
        status mg' = .ok (mg', res) ∧
        res.pending = [] ∧ res.total_pending = 0 ∧
        res.applied = appliedOf mg.store ++ pendingOf mg ∧
        res.current_version = (appliedOf mg.store ++ pendingOf mg).getLast?) := by
  refine ⟨fun mg mg' res h => status_frame h, fun mg hok => status_eq hok, ?_⟩
  intro mg hok hall hnodup
  obtain ⟨mg', h1, h2, h3, hok'⟩ := migrate_ok none hok hall hnodup
  have h2' : appliedOf mg'.store = appliedOf mg.store ++ pendingOf mg := h2
  have hpend0 : pendingOf mg' = [] := pendingOf_after_all h3 h2'
  refine ⟨mg', _, h1, status_eq hok', ?_, ?_, ?_, ?_⟩
  · exact hpend0
  · simp [hpend0]
  · exact h2'
  · simp [h2']

theorem status_pure_and_contents_witness :
    demoMg = demoMg ∧
    status demoMg = .ok (demoMg, ⟨[], ["20240101_first", "20240102_second"],
      0, 2, none⟩) ∧
    (∃ mg' res, migrate none demoMg = .ok (true, mg') ∧
      status mg' = .ok (mg', res) ∧
      res.pending = [] ∧ res.total_pending = 0 ∧
      res.applied = appliedOf demoMg.store ++ pendingOf demoMg ∧
      res.current_version = (appliedOf demoMg.store ++ pendingOf demoMg).getLast?) :=
  ⟨status_pure_and_contents.1 demoMg demoMg
      ⟨[], ["20240101_first", "20240102_second"], 0, 2, none⟩ (by decide),
   status_pure_and_contents.2.1 demoMg (by decide),
   status_pure_and_contents.2.2 demoMg (by decide) (by decide) (by decide)⟩

end PyFusion

